import Mathlib

/-!
Verification development for the `reshade_fx_viewer` repository
(`fx_ui_generator_V1_2.py`).

The file shallowly embeds the pure core of the program:

* `parse_fx_uniforms` — the shader-schema extractor (regex scanning over the
  source text, `#define` resolution for `ui_min`/`ui_max`);
* `parse_ini` / `save_ini_lines` — the configuration store built on Python's
  `configparser` (`strict=True`, `interpolation=None`, `optionxform=str`)
  together with the case-preserving first pass and the `[GLOBAL]` synthesis;
* `update_ini_from_widgets` / `set_widgets_from_ini` — the binding layer
  between widget values and the store, and the compatibility check from
  `FXUniformUI.load_ini`.

Texts are represented as lists of lines (`List String`) split at newline,
exactly as both `str.splitlines` and `configparser.read_string` consume them.
Python dicts are embedded as association lists with insertion-order update
semantics (`dictSet`).  Widget numeric state is abstracted as the decimal
string the widget holds; Qt-internal clamping is outside the embedded core.
-/

namespace FxViewer

/-- Python `\s` / `str.strip` whitespace, restricted to ASCII. -/
def isPySpace (c : Char) : Bool :=
  c = ' ' || c = '\t' || c = '\n' || c = '\r' || c = '\x0b' || c = '\x0c'

/-- Python `\w` word character, restricted to ASCII. -/
def isWordChar (c : Char) : Bool :=
  c.isAlpha || c.isDigit || c = '_'

/-- Character class `[\d\.]` from the `#define` pattern. -/
def isDigitDot (c : Char) : Bool :=
  c.isDigit || c = '.'

/-- Strip `isPySpace` characters from both ends of a character list
(Python `str.strip`). -/
def pstripChars (cs : List Char) : List Char :=
  ((cs.dropWhile isPySpace).reverse.dropWhile isPySpace).reverse

/-- Python `str.strip` on a string. -/
def pstrip (s : String) : String :=
  ⟨pstripChars s.data⟩

/-- Python `str.rstrip` on a character list. -/
def prstripChars (cs : List Char) : List Char :=
  (cs.reverse.dropWhile isPySpace).reverse

/-- Python `str.rstrip` on a string. -/
def prstrip (s : String) : String :=
  ⟨prstripChars s.data⟩

/-- Python `str.lower` restricted to ASCII, kept kernel-computable. -/
def strLower (s : String) : String :=
  ⟨s.data.map Char.toLower⟩

/-- Prefix test on strings, kept kernel-computable. -/
def strStarts (s pre : String) : Bool :=
  pre.data.isPrefixOf s.data

/-- Python dict lookup. -/
def dictGet (d : List (String × α)) (k : String) : Option α :=
  d.lookup k

/-- Python dict assignment `d[k] = v`: an existing key keeps its position and
gets the new value, a fresh key is appended (keys are unique by
construction, so replacing the first occurrence is the dict semantics). -/
def dictSet : List (String × α) → String → α → List (String × α)
  | [], k, v => [(k, v)]
  | (k1, v1) :: t, k, v =>
    if k1 = k then (k, v) :: t else (k1, v1) :: dictSet t k v

/-- Keys of an embedded dict, in insertion order. -/
def dictKeys (d : List (String × α)) : List String :=
  d.map Prod.fst

/-- Greedy match of one-or-more characters satisfying `p` (regex `p+` in a
position where no following pattern element can match a `p`-character, so
maximal munch is exact).  Returns the matched run and the remaining suffix. -/
def munch1 (p : Char → Bool) : List Char → Option (List Char × List Char)
  | [] => none
  | c :: cs =>
    if p c then some ((c :: cs).takeWhile p, (c :: cs).dropWhile p) else none

/-- Match one expected literal character. -/
def expectChar (c : Char) : List Char → Option (List Char)
  | [] => none
  | x :: xs => if x = c then some xs else none

/-- Match a literal character sequence at the head of the input. -/
def stripLit : List Char → List Char → Option (List Char)
  | [], cs => some cs
  | _ :: _, [] => none
  | l :: ls, c :: cs => if c = l then stripLit ls cs else none

/-- One uniform block as matched by
`uniform\s+(\w+)\s+(\w+)\s*<([^>]*)>\s*=\s*([^;]+);` — the four groups, kept
raw (the default chunk still unstripped). -/
structure RawUniform where
  utype : List Char
  uname : List Char
  metaChunk : List Char
  defChunk : List Char
deriving Repr, DecidableEq

/-- Match the tail of a uniform block (everything after the literal
`uniform`).  Every quantifier in the pattern is exact maximal munch because
each repeated class is disjoint from the element that follows it; the one
place regex backtracking can occur (`=\s*([^;]+);` when the default is all
whitespace) is extensionally equal to taking all characters before the
first `;` as the default chunk, since the program strips the group. -/
def matchUniformTail (cs : List Char) : Option (RawUniform × List Char) :=
  (munch1 isPySpace cs).bind fun s1 =>
  (munch1 isWordChar s1.2).bind fun s2 =>
  (munch1 isPySpace s2.2).bind fun s3 =>
  (munch1 isWordChar s3.2).bind fun s4 =>
  (expectChar '<' (s4.2.dropWhile isPySpace)).bind fun cs5 =>
  (expectChar '>' (cs5.dropWhile (· ≠ '>'))).bind fun cs6 =>
  (expectChar '=' (cs6.dropWhile isPySpace)).bind fun cs7 =>
  (expectChar ';' (cs7.dropWhile (· ≠ ';'))).bind fun rest =>
  if (cs7.takeWhile (· ≠ ';')).isEmpty then none
  else some (⟨s2.1, s4.1, cs5.takeWhile (· ≠ '>'), cs7.takeWhile (· ≠ ';')⟩, rest)

/-- Skip an optional literal character (regex `c?`). -/
def optChar (c : Char) (cs : List Char) : List Char :=
  match expectChar c cs with
  | some r => r
  | none => cs

/-- Try the whole uniform pattern at the current position; on success also
report how many characters the match consumed (always at least the seven of
the literal `uniform`, by `matchUniformTail_length`). -/
def uniformMatchAt (cs : List Char) : Option (RawUniform × Nat) :=
  (stripLit ['u', 'n', 'i', 'f', 'o', 'r', 'm'] cs).bind fun cs1 =>
  (matchUniformTail cs1).bind fun mr =>
  some (mr.1, cs.length - mr.2.length)

/-- Scan `uniform\s+(\w+)\s+(\w+)\s*<([^>]*)>\s*=\s*([^;]+);` over the whole
text, non-overlapping and left to right, as `re.finditer` does: try a match
at every position, and on success continue after the matched span (the
`skip` counter walks the list past the consumed span structurally). -/
def scanUniformsGo : List Char → Nat → List RawUniform
  | [], _ => []
  | _ :: cs, Nat.succ skip => scanUniformsGo cs skip
  | c :: cs, 0 =>
    match uniformMatchAt (c :: cs) with
    | some (m, consumed) => m :: scanUniformsGo cs (consumed - 1)
    | none => scanUniformsGo cs 0

/-- All uniform-pattern matches of a text, in scan order. -/
def scanUniforms (cs : List Char) : List RawUniform :=
  scanUniformsGo cs 0

/-- Match `#define\s+(\w+)\s+([\d\.]+)` after the literal `#define`. -/
def matchDefineTail (cs : List Char) : Option ((List Char × List Char) × List Char) :=
  (munch1 isPySpace cs).bind fun s1 =>
  (munch1 isWordChar s1.2).bind fun s2 =>
  (munch1 isPySpace s2.2).bind fun s3 =>
  (munch1 isDigitDot s3.2).bind fun s4 =>
  some ((s2.1, s4.1), s4.2)

/-- Try the whole `#define` pattern at the current position, reporting the
consumed length on success. -/
def defineMatchAt (cs : List Char) : Option ((List Char × List Char) × Nat) :=
  (stripLit ['#', 'd', 'e', 'f', 'i', 'n', 'e'] cs).bind fun cs1 =>
  (matchDefineTail cs1).bind fun mr =>
  some (mr.1, cs.length - mr.2.length)

/-- Scan the `#define` pattern over the whole text, as `re.finditer` does. -/
def scanDefinesGo : List Char → Nat → List (List Char × List Char)
  | [], _ => []
  | _ :: cs, Nat.succ skip => scanDefinesGo cs skip
  | c :: cs, 0 =>
    match defineMatchAt (c :: cs) with
    | some (kv, consumed) => kv :: scanDefinesGo cs (consumed - 1)
    | none => scanDefinesGo cs 0

/-- All `#define` matches of a text, in scan order. -/
def scanDefines (cs : List Char) : List (List Char × List Char) :=
  scanDefinesGo cs 0

/-- Characters allowed in a metadata value: the class `[^;\n"]`. -/
def isMetaValChar (c : Char) : Bool :=
  c ≠ ';' && c ≠ '\n' && c ≠ '"'

/-- Match `(\w+)\s*=\s*"?([^;\n"]+)"?;?` at the current position.  The
optional opening quote never needs backtracking because `"` is excluded from
the value class. -/
def matchMetaAt (cs : List Char) : Option ((List Char × List Char) × List Char) :=
  (munch1 isWordChar cs).bind fun s1 =>
  (expectChar '=' (s1.2.dropWhile isPySpace)).bind fun cs3 =>
  (munch1 isMetaValChar (optChar '"' (cs3.dropWhile isPySpace))).bind fun s6 =>
  some ((s1.1, s6.1), optChar ';' (optChar '"' s6.2))

/-- The metadata pattern at the current position, reporting consumed length. -/
def metaMatchAt (cs : List Char) : Option ((List Char × List Char) × Nat) :=
  (matchMetaAt cs).bind fun mr => some (mr.1, cs.length - mr.2.length)

/-- Scan the metadata pattern `(\w+)\s*=\s*"?([^;\n"]+)"?;?` over a metadata
chunk, as `re.findall` does. -/
def scanMetaGo : List Char → Nat → List (List Char × List Char)
  | [], _ => []
  | _ :: cs, Nat.succ skip => scanMetaGo cs skip
  | c :: cs, 0 =>
    match metaMatchAt (c :: cs) with
    | some (kv, consumed) => kv :: scanMetaGo cs (consumed - 1)
    | none => scanMetaGo cs 0

/-- All metadata matches of a chunk, in scan order. -/
def scanMeta (cs : List Char) : List (List Char × List Char) :=
  scanMetaGo cs 0

/-- The bare-numeric-literal test `re.match(r'^-?\d+(\.\d+)?$', v)`. -/
def numericLitChars (cs : List Char) : Bool :=
  match munch1 Char.isDigit (optChar '-' cs) with
  | none => false
  | some (_, rest) =>
    match rest with
    | [] => true
    | '.' :: rest2 =>
      match munch1 Char.isDigit rest2 with
      | some (_, []) => true
      | _ => false
    | _ => false

/-- Bare-numeric-literal test on a string. -/
def numericLit (s : String) : Bool :=
  numericLitChars s.data

/-- One parsed uniform declaration (dict appended by `parse_fx_uniforms`). -/
structure Uniform where
  type : String
  name : String
  meta : List (String × String)
  default : String
deriving Repr, DecidableEq

/-- The `ui_min`/`ui_max` resolution step inside `parse_fx_uniforms`: a
present, non-numeric value is replaced by its `#define` binding when one
exists and by the fixed fallback (`"0"` for `ui_min`, `"100"` for `ui_max`)
otherwise. -/
def resolveMinMaxKey (defines md : List (String × String)) (k : String) :
    List (String × String) :=
  match dictGet md k with
  | none => md
  | some v =>
    if v ≠ "" && !numericLit v then
      match dictGet defines v with
      | some dv => dictSet md k dv
      | none => dictSet md k (if k = "ui_min" then "0" else "100")
    else md

/-- The metadata dict of one uniform block: `dict(meta_pattern.findall(meta))`. -/
def metaDictOf (raw : RawUniform) : List (String × String) :=
  (scanMeta raw.metaChunk).foldl (fun d kv => dictSet d ⟨kv.1⟩ ⟨kv.2⟩) []

/-- Build one `Uniform` record from a raw regex match, resolving `ui_min`
then `ui_max` against the `#define` table and stripping the default. -/
def buildUniform (defines : List (String × String)) (raw : RawUniform) : Uniform :=
  { type := ⟨raw.utype⟩
    name := ⟨raw.uname⟩
    meta := resolveMinMaxKey defines
      (resolveMinMaxKey defines (metaDictOf raw) "ui_min") "ui_max"
    default := pstrip ⟨raw.defChunk⟩ }

/-- The `#define` symbolic-constant table of a shader text. -/
def definesOf (text : String) : List (String × String) :=
  (scanDefines text.data).foldl (fun d kv => dictSet d ⟨kv.1⟩ ⟨kv.2⟩) []

/-- `parse_fx_uniforms`: extract the ordered uniform declarations of a shader
source text (the file-reading wrapper is dropped; the function is the pure
text-to-declarations map). -/
def parse_fx_uniforms (text : String) : List Uniform :=
  (scanUniforms text.data).map (buildUniform (definesOf text))

/-- Header-name extraction of `configparser.SECTCRE`, `\[(?P<header>.+)\]`,
matched against an already-stripped line: the line starts with `[`, the
(greedy) header runs to the last `]`, trailing characters are ignored, and
the header is nonempty. -/
def sectHeaderName (value : String) : Option String :=
  match value.data with
  | [] => none
  | c :: rest =>
    if c = '[' then
      match rest.reverse.dropWhile (· ≠ ']') with
      | b :: revHeader =>
        if b = ']' then
          (if revHeader.isEmpty then none else some ⟨revHeader.reverse⟩)
        else none
      | [] => none
    else none

/-- Header-name extraction of the first pass in `parse_ini`,
`re.match(r'^\[(.+?)\]', line)` on the raw line: the line starts with `[`,
the non-greedy header is one character plus everything up to the next `]`. -/
def pass1HeaderName (line : String) : Option String :=
  match line.data with
  | c :: r0 :: rrest =>
    if c = '[' then
      match rrest.dropWhile (· ≠ ']') with
      | b :: _ =>
        if b = ']' then some ⟨r0 :: rrest.takeWhile (· ≠ ']')⟩ else none
      | [] => none
    else none
  | _ => none

/-- Key/value split of `configparser.OPTCRE` with delimiters `=`/`:` on an
already-stripped line, followed by the `optname.rstrip()` and
`optval.strip()` the reader applies: split at the first delimiter. -/
def splitOptLine (value : String) : Option (String × String) :=
  match value.data.dropWhile (fun c => c ≠ '=' && c ≠ ':') with
  | _ :: rest =>
    some (⟨prstripChars (value.data.takeWhile (fun c => c ≠ '=' && c ≠ ':'))⟩,
          ⟨pstripChars rest⟩)
  | [] => none

/-- A parse error of the structured reader (`configparser._read`). -/
inductive ReadErr where
  | dupSection (name : String)
  | dupOption (sect opt : String)
  | missingHeader
  | parsingError
deriving Repr, DecidableEq

/-- The in-memory store of a `ConfigParser` with `optionxform=str`:
the `DEFAULT` option dict and the named sections in insertion order
(`_sections` never holds the `DEFAULT` key). -/
structure IniConfig where
  defaults : List (String × String)
  sections : List (String × List (String × String))
deriving Repr, DecidableEq

/-- `has_section`. -/
def hasSection (cfg : IniConfig) (s : String) : Bool :=
  (cfg.sections.lookup s).isSome

/-- `__contains__` on the parser: the default section always counts. -/
def iniContains (cfg : IniConfig) (s : String) : Bool :=
  s = "DEFAULT" || hasSection cfg s

/-- The raw option dict of a section (empty when absent). -/
def sectDict (cfg : IniConfig) (s : String) : List (String × String) :=
  (cfg.sections.lookup s).getD []

/-- Option lookup chaining the section over `DEFAULT`
(`_unify_values`, with `optionxform=str`). -/
def iniGet (cfg : IniConfig) (s k : String) : Option String :=
  match (sectDict cfg s).lookup k with
  | some v => some v
  | none => cfg.defaults.lookup k

/-- `options(section)`: the section's own keys in insertion order, then the
`DEFAULT` keys not shadowed by the section. -/
def iniOptions (cfg : IniConfig) (s : String) : List String :=
  dictKeys (sectDict cfg s) ++
    (dictKeys cfg.defaults).filter (fun k => ((sectDict cfg s).lookup k).isNone)

/-- `SectionProxy.items()`: `options` paired with the chained values. -/
def iniItems (cfg : IniConfig) (s : String) : List (String × String) :=
  (iniOptions cfg s).map fun k => (k, (iniGet cfg s k).getD "")

/-- Reader state of `configparser._read`: option values are kept as line
lists until the final join, `cursect` names the current target (the marker
`DEFAULT` routes to the defaults dict), `addedSects`/`addedOpts` mirror
`elements_added`, and `bogus` records a pending accumulated `ParsingError`. -/
structure RState where
  defaults : List (String × List String)
  sections : List (String × List (String × List String))
  cursect : Option String
  optname : Option String
  indentLevel : Nat
  addedSects : List String
  addedOpts : List (String × String)
  bogus : Bool
deriving Repr, DecidableEq

/-- Initial reader state. -/
def initRState : RState :=
  { defaults := []
    sections := []
    cursect := none
    optname := none
    indentLevel := 0
    addedSects := []
    addedOpts := []
    bogus := false }

/-- Update one entry of a dict in place (the entry always exists where this
is used; an absent key leaves the dict unchanged). -/
def dictMapAt : List (String × β) → String → (β → β) → List (String × β)
  | [], _, _ => []
  | (k1, v1) :: t, k, f =>
    if k1 = k then (k1, f v1) :: t else (k1, v1) :: dictMapAt t k f

/-- `cursect[optname] = [optval]` routed through the `DEFAULT` marker. -/
def setOptVal (st : RState) (sect opt : String) (v : List String) : RState :=
  if sect = "DEFAULT" then { st with defaults := dictSet st.defaults opt v }
  else { st with sections := dictMapAt st.sections sect (fun d => dictSet d opt v) }

/-- `cursect[optname].append(x)` routed through the `DEFAULT` marker. -/
def appendOptVal (st : RState) (sect opt x : String) : RState :=
  let f := fun (d : List (String × List String)) =>
    match d.lookup opt with
    | some vs => dictSet d opt (vs ++ [x])
    | none => d
  if sect = "DEFAULT" then { st with defaults := f st.defaults }
  else { st with sections := dictMapAt st.sections sect f }

/-- A section header or option line (the non-continuation branch of the
reader loop). -/
def readStructured (st : RState) (value : String) (curIndent : Nat) :
    Except ReadErr RState :=
  let st := { st with indentLevel := curIndent }
  match sectHeaderName value with
  | some sectname =>
    if (st.sections.lookup sectname).isSome then
      if st.addedSects.contains sectname then .error (.dupSection sectname)
      else .ok { st with
        cursect := some sectname
        optname := none
        addedSects := st.addedSects ++ [sectname] }
    else if sectname = "DEFAULT" then
      .ok { st with cursect := some "DEFAULT", optname := none }
    else
      .ok { st with
        sections := st.sections ++ [(sectname, [])]
        cursect := some sectname
        optname := none
        addedSects := st.addedSects ++ [sectname] }
  | none =>
    match st.cursect with
    | none => .error .missingHeader
    | some sect =>
      match splitOptLine value with
      | some (opt, optval) =>
        let st := if opt = "" then { st with bogus := true } else st
        if st.addedOpts.contains (sect, opt) then .error (.dupOption sect opt)
        else .ok (setOptVal
          { st with addedOpts := st.addedOpts ++ [(sect, opt)], optname := some opt }
          sect opt [optval])
      | none => .ok { st with bogus := true }

/-- One line of `configparser._read` (full-line `#`/`;` comments, blank-line
handling with `empty_lines_in_values=True`, continuation lines by deeper
indentation, then headers/options). -/
def readLine (st : RState) (line : String) : Except ReadErr RState :=
  let stripped := pstrip line
  let isComment := strStarts stripped "#" || strStarts stripped ";"
  let value := if isComment then "" else stripped
  if value = "" then
    match st.cursect, st.optname with
    | some sect, some opt =>
      if !isComment && opt ≠ "" then .ok (appendOptVal st sect opt "") else .ok st
    | _, _ => .ok st
  else
    let curIndent := (line.data.takeWhile isPySpace).length
    match st.cursect, st.optname with
    | some sect, some opt =>
      if opt ≠ "" && curIndent > st.indentLevel then
        .ok (appendOptVal st sect opt value)
      else readStructured st value curIndent
    | _, _ => readStructured st value curIndent

/-- Run the reader over the remaining lines. -/
def readLinesFrom (st : RState) : List String → Except ReadErr RState
  | [] => .ok st
  | l :: ls =>
    match readLine st l with
    | .error e => .error e
    | .ok st2 => readLinesFrom st2 ls

/-- `_join_multiline_values`: join the collected lines and strip trailing
whitespace. -/
def finalizeVal (vs : List String) : String :=
  prstrip (String.intercalate "\n" vs)

/-- `read_string` on a list of lines: run the reader, raise the pending
`ParsingError` at the end, and join multiline values. -/
def readString (lines : List String) : Except ReadErr IniConfig :=
  match readLinesFrom initRState lines with
  | .error e => .error e
  | .ok st =>
    if st.bogus then .error .parsingError
    else .ok { defaults := st.defaults.map (fun p => (p.1, finalizeVal p.2))
               sections := st.sections.map
                 (fun p => (p.1, p.2.map (fun q => (q.1, finalizeVal q.2)))) }

/-- State of the case-preserving first pass of `parse_ini`. -/
structure Pass1State where
  smap : List (String × String)
  kmap : List (String × List (String × String))
  current : Option String
deriving Repr, DecidableEq

/-- One line of the first pass: record section-header casing (resetting that
section's key map) or, under a section, the casing of the key before the
first `=`. -/
def pass1Line (st : Pass1State) (line : String) : Pass1State :=
  match pass1HeaderName line with
  | some name =>
    { smap := dictSet st.smap (strLower name) name
      kmap := dictSet st.kmap (strLower name) []
      current := some name }
  | none =>
    match st.current with
    | some cur =>
      if line.data.contains '=' then
        let key := pstrip ⟨line.data.takeWhile (· ≠ '=')⟩
        { st with kmap :=
            dictMapAt st.kmap (strLower cur) (fun sub => dictSet sub (strLower key) key) }
      else st
    | none => st

/-- The two casing maps recorded by the first pass of `parse_ini`. -/
def pass1Maps (lines : List String) :
    (List (String × String)) × (List (String × List (String × String))) :=
  let fin := lines.foldl pass1Line { smap := [], kmap := [], current := none }
  (fin.smap, fin.kmap)

/-- The synthesis guard `re.match(r'\s*\[.*?\]', content)`: the first
non-whitespace character of the whole text is `[` and a `]` follows it on
the same line. -/
def globalGuard (lines : List String) : Bool :=
  match lines.dropWhile (fun l => l.data.all isPySpace) with
  | [] => false
  | l :: _ =>
    match l.data.dropWhile isPySpace with
    | [] => false
    | c :: rest => c = '[' && rest.contains ']' 

/-- Whole text as one string (lines joined by newline). -/
def contentOf : List String → String
  | [] => ""
  | [l] => l
  | l :: ls => l ++ "\n" ++ contentOf ls

/-- `re.findall(r'^(\w+)\s*=', content, re.MULTILINE)`: at every line start,
a word run followed by (possibly line-crossing) whitespace and `=`. -/
def topKeys : List String → List String
  | [] => []
  | l :: ls =>
    (match munch1 isWordChar (contentOf (l :: ls)).data with
     | some (w, rest) =>
       match rest.dropWhile isPySpace with
       | '=' :: _ => [(⟨w⟩ : String)]
       | _ => []
     | none => []) ++ topKeys ls

/-- The outcome of `parse_ini`: a usable store with the two casing maps, the
caught `DuplicateSectionError` signal (store `None`, maps still returned),
or an uncaught exception escaping the function. -/
inductive ParseIniResult where
  | ok (config : IniConfig) (smap : List (String × String))
      (kmap : List (String × List (String × String)))
  | dupSignal (smap : List (String × String))
      (kmap : List (String × List (String × String))) (name : String)
  | raised (e : ReadErr)
deriving Repr, DecidableEq

/-- The effective text handed to the structured reader: `[GLOBAL]` is
prepended when the guard fails. -/
def effectiveLines (lines : List String) : List String :=
  if globalGuard lines then lines else "[GLOBAL]" :: lines

/-- `parse_ini` on the file's text (the missing-file branch, which returns
an empty parser and empty maps without an error slot, is outside this
text-level embedding). -/
def parse_ini (lines : List String) : ParseIniResult :=
  let maps := pass1Maps lines
  let gg := globalGuard lines
  let eff := effectiveLines lines
  let smap := if gg then maps.1 else dictSet maps.1 "global" "GLOBAL"
  let kmap := if gg then maps.2
    else dictSet maps.2 "global" ((topKeys eff).foldl (fun d k => dictSet d k k) [])
  match readString eff with
  | .ok cfg => .ok cfg smap kmap
  | .error (.dupSection n) => .dupSignal smap kmap n
  | .error e => .raised e

/-- One written `key=value` line. -/
def kvLine (k v : String) : String := k ++ "=" ++ v

/-- The original-casing lookup `key_name_map.get(sectLower, {}).get(k, k)`. -/
def origKey (kmap : List (String × List (String × String)))
    (sectLower k : String) : String :=
  (((kmap.lookup sectLower).getD []).lookup k).getD k

/-- The explicit-section part of `save_ini`: each non-`GLOBAL` section in
store order, a blank separator line once anything was written before,
original-cased header and keys. -/
def saveSections (cfg : IniConfig) (smap : List (String × String))
    (kmap : List (String × List (String × String))) :
    List String → Bool → List String
  | [], _ => []
  | s :: rest, wroteAny =>
    if s = "GLOBAL" then saveSections cfg smap kmap rest wroteAny
    else
      (if wroteAny then [""] else []) ++
      ("[" ++ ((smap.lookup (strLower s)).getD s) ++ "]") ::
      (iniItems cfg s).map (fun p => kvLine (origKey kmap (strLower s) p.1) p.2) ++
      saveSections cfg smap kmap rest true

/-- The serialization loop of `FXUniformUI.save_ini` (each element is one
written line; file output appends a newline to each): the `GLOBAL` section,
when present, is written first and headerless, then all other sections in
store order. -/
def save_ini_lines (cfg : IniConfig) (smap : List (String × String))
    (kmap : List (String × List (String × String))) : List String :=
  if hasSection cfg "GLOBAL" then
    (iniItems cfg "GLOBAL").map
      (fun p => kvLine (origKey kmap "global" p.1) p.2) ++
    saveSections cfg smap kmap (dictKeys cfg.sections) true
  else
    saveSections cfg smap kmap (dictKeys cfg.sections) false

/-- Parse then immediately serialize, when parsing returns a usable store. -/
def roundTripSave (lines : List String) : Option (List String) :=
  match parse_ini lines with
  | .ok cfg smap kmap => some (save_ini_lines cfg smap kmap)
  | _ => none

/-- Drop blank lines (the separators serialization may insert). -/
def removeBlanks (ls : List String) : List String :=
  ls.filter (· ≠ "")

/-- A digit run with Python's numeric-literal underscore rules (single `_`
only between digits), accumulating the base-10 value; `prevD` says whether
the previous character was a digit.  Consumes the whole input. -/
def digitsRun : List Char → Nat → Bool → Option Nat
  | [], acc, prevD => if prevD then some acc else none
  | c :: cs, acc, prevD =>
    if c.isDigit then digitsRun cs (acc * 10 + (c.toNat - 48)) true
    else if c = '_' then (if prevD then digitsRun cs acc false else none)
    else none

/-- Python `int(str)` in base 10: strip whitespace, optional sign, digit run
with underscore rules (ASCII digits). -/
def pyIntParse (s : String) : Option Int :=
  match pstripChars s.data with
  | '+' :: rest => (digitsRun rest 0 false).map Int.ofNat
  | '-' :: rest => (digitsRun rest 0 false).map fun n => -(n : Int)
  | rest => (digitsRun rest 0 false).map Int.ofNat

/-- Consume a leading digit run with underscore rules, returning the rest of
the input; `none` when no valid run starts here (including a malformed
underscore, after which no completion can be a valid float anyway). -/
def munchDigits : List Char → Bool → Option (List Char)
  | [], prevD => if prevD then some [] else none
  | c :: cs, prevD =>
    if c.isDigit then munchDigits cs true
    else if c = '_' then (if prevD then munchDigits cs false else none)
    else if prevD then some (c :: cs) else none

/-- The optional exponent and end-of-input of a Python float literal. -/
def pyFloatExpEnd : List Char → Bool
  | [] => true
  | e :: r =>
    if e = 'e' || e = 'E' then
      let r2 := match r with
        | '+' :: r' => r'
        | '-' :: r' => r'
        | r' => r'
      match munchDigits r2 false with
      | some [] => true
      | _ => false
    else false

/-- The mantissa-and-exponent body of a Python float literal (sign already
removed). -/
def pyFloatBody (cs : List Char) : Bool :=
  match munchDigits cs false with
  | some rest =>
    match rest with
    | '.' :: r =>
      (match munchDigits r false with
       | some r2 => pyFloatExpEnd r2
       | none => pyFloatExpEnd r)
    | r => pyFloatExpEnd r
  | none =>
    match cs with
    | '.' :: r =>
      (match munchDigits r false with
       | some r2 => pyFloatExpEnd r2
       | none => false)
    | _ => false

/-- Python `float(str)` acceptance (ASCII): `some true` for a finite
numeric literal, `some false` for `inf`/`infinity`/`nan` (case-insensitive),
`none` when `float` raises `ValueError`. -/
def pyFloatClass (s : String) : Option Bool :=
  let cs := pstripChars s.data
  let body := match cs with
    | '+' :: r => r
    | '-' :: r => r
    | r => r
  let low := body.map Char.toLower
  if low = ['i', 'n', 'f'] || low = ['i', 'n', 'f', 'i', 'n', 'i', 't', 'y'] then
    some false
  else if low = ['n', 'a', 'n'] then some false
  else if pyFloatBody body then some true
  else none

/-- `float(str)` succeeds. -/
def pyFloatOk (s : String) : Bool :=
  (pyFloatClass s).isSome

/-- `float(str)` succeeds with a finite value (so `int(float(str))` also
succeeds). -/
def pyFloatFinite (s : String) : Bool :=
  pyFloatClass s = some true

/-- The boolean truth set `value.lower() in ('1', 'true', 'yes')`. -/
def truthy (v : String) : Bool :=
  strLower v = "1" || strLower v = "true" || strLower v = "yes"

/-- Widget state, one constructor per widget class the program dispatches
on.  Numeric widget state is abstracted as the decimal string the widget
displays (`str(widget.value())` reads it back); the combo box stores its
current index. -/
inductive Widget where
  | combo (idx : Int)
  | spin (txt : String)
  | dspin (txt : String)
  | check (b : Bool)
  | line (txt : String)
deriving Repr, DecidableEq

/-- The per-class serialization of `update_ini_from_widgets`: combo index
as decimal, numeric value as decimal string, checkbox as `"1"`/`"0"`,
anything else the raw text. -/
def widgetToStr : Widget → String
  | .combo idx => toString idx
  | .spin txt => txt
  | .dspin txt => txt
  | .check b => if b then "1" else "0"
  | .line txt => txt

/-- `add_section` (the caller guards against an existing section and against
`DEFAULT`, where CPython would raise). -/
def addSection (cfg : IniConfig) (s : String) : IniConfig :=
  { cfg with sections := cfg.sections ++ [(s, [])] }

/-- `config[section][key] = value`: route `DEFAULT` (and the empty name) to
the defaults dict, otherwise update the section in place (the caller
ensures the section exists). -/
def iniSet (cfg : IniConfig) (s k v : String) : IniConfig :=
  if s = "" || s = "DEFAULT" then { cfg with defaults := dictSet cfg.defaults k v }
  else { cfg with sections := dictMapAt cfg.sections s (fun d => dictSet d k v) }

/-- `update_ini_from_widgets`: create the section when absent, then write
each declaration's serialized widget value under the declaration's name
(declarations without a widget are skipped). -/
def pushStep (sec : String) (ws : List (String × Widget)) (c : IniConfig)
    (u : Uniform) : IniConfig :=
  match dictGet ws u.name with
  | none => c
  | some w => iniSet c sec u.name (widgetToStr w)

/-- See `update_ini_from_widgets`. -/
def update_ini_from_widgets (cfg : IniConfig) (sec : String) (us : List Uniform)
    (ws : List (String × Widget)) : IniConfig :=
  let cfg0 := if iniContains cfg sec then cfg else addSection cfg sec
  us.foldl (pushStep sec ws) cfg0

/-- The per-class value application of `set_widgets_from_ini`, inside its
`try/except`: `setCurrentIndex(int(value))`, `setValue(float(value))`,
`setChecked(value.lower() in ('1','true','yes'))`, `setText(value)`; a
failed `int`/`float` parse raises, the except swallows it and the widget
keeps its previous state. -/
def trySetWidget (w : Widget) (v : String) : Widget :=
  match w with
  | .combo _ =>
    (match pyIntParse v with
     | some n => .combo n
     | none => w)
  | .spin _ => if pyFloatOk v then .spin v else w
  | .dspin _ => if pyFloatOk v then .dspin v else w
  | .check _ => .check (truthy v)
  | .line _ => .line v

/-- `set_widgets_from_ini`: no-op when the section is absent from the
parser; otherwise each declaration with a widget receives the section value
under its exact name, falling back to the declaration's raw default. -/
def pullStep (cfg : IniConfig) (sec : String) (wmap : List (String × Widget))
    (u : Uniform) : List (String × Widget) :=
  match dictGet wmap u.name with
  | none => wmap
  | some w =>
    dictSet wmap u.name (trySetWidget w ((iniGet cfg sec u.name).getD u.default))

/-- See `set_widgets_from_ini`. -/
def set_widgets_from_ini (cfg : IniConfig) (sec : String) (us : List Uniform)
    (ws : List (String × Widget)) : List (String × Widget) :=
  if !(iniContains cfg sec) then ws
  else us.foldl (pullStep cfg sec) ws

/-- Split on the two-character separator `\0` (Python `split('\\0')`). -/
def splitBS0 : List Char → List Char → List (List Char)
  | [], acc => [acc.reverse]
  | '\\' :: '0' :: cs, acc => acc.reverse :: splitBS0 cs []
  | c :: cs, acc => splitBS0 cs (acc ++ [c])

/-- `make_widget`: combo when `ui_type == 'combo'`, spin boxes for
slider/drag hints or int/float types, checkbox for bool, line edit
otherwise.  The `try/except` around the initial value keeps the Qt default
(index `0` once items exist, `-1` when empty; value `0`) on a parse
failure; ranges and steps are Qt state outside this embedding. -/
def make_widget (u : Uniform) : Widget :=
  if dictGet u.meta "ui_type" = some "combo" then
    let items := splitBS0 ((dictGet u.meta "ui_items").getD "").data []
    let itemCount := (items.filter (fun i => !i.isEmpty)).length
    let initIdx : Int := if itemCount = 0 then -1 else 0
    .combo ((pyIntParse u.default).getD initIdx)
  else if dictGet u.meta "ui_type" = some "slider" || dictGet u.meta "ui_type" = some "drag"
      || u.type = "int" || u.type = "float" then
    if u.type = "int" then .spin (if pyFloatFinite u.default then u.default else "0")
    else .dspin (if pyFloatOk u.default then u.default else "0")
  else if u.type = "bool" then .check (truthy u.default)
  else .line u.default

/-- The widget map built by `build_form`: `widgets[name] = make_widget(u)`
for each declaration in order (a repeated name overwrites). -/
def buildWidgets (us : List Uniform) : List (String × Widget) :=
  us.foldl (fun m u => dictSet m u.name (make_widget u)) []

/-- The name normalization of the compatibility check:
`k.replace('_', '').lower()`. -/
def normkey (k : String) : String :=
  strLower ⟨k.data.filter (· ≠ '_')⟩

/-- The keys the compatibility check sees: the target section's option list
when the section is in the parser, empty otherwise. -/
def iniKeysOf (cfg : IniConfig) (sec : String) : List String :=
  if iniContains cfg sec then iniOptions cfg sec else []

/-- The compatibility check of `load_ini`: the original names of the
declarations whose normalized name matches no normalized section key
(`missing` is empty exactly when this list is). -/
def checkCompatMissing (us : List Uniform) (cfg : IniConfig) (sec : String) :
    List String :=
  let iniKeysNorm := (iniKeysOf cfg sec).map normkey
  (us.filter (fun u => !(iniKeysNorm.contains (normkey u.name)))).map (fun u => u.name)

/-- The `ui_min`/`ui_max` resolution described by the specification: a
present value that is not a bare numeric literal is replaced by its
`#define` binding when one exists and by the fixed fallback otherwise; an
absent key stays absent, and the step never fails. -/
def resolvedVal (defines : List (String × String)) (fallback : String) :
    Option String → Option String
  | none => none
  | some v =>
    if v ≠ "" && !numericLit v then some ((dictGet defines v).getD fallback)
    else some v

/-- Position-instrumented mirror of `scanUniformsGo`, recording the index at
which each match begins. -/
def scanUniformsIdxGo : List Char → Nat → Nat → List (Nat × RawUniform)
  | [], _, _ => []
  | _ :: cs, Nat.succ skip, pos => scanUniformsIdxGo cs skip (pos + 1)
  | c :: cs, 0, pos =>
    match uniformMatchAt (c :: cs) with
    | some (m, consumed) => (pos, m) :: scanUniformsIdxGo cs (consumed - 1) (pos + 1)
    | none => scanUniformsIdxGo cs 0 (pos + 1)

/-- The uniform matches of a text together with their start positions. -/
def scanUniformsIdx (cs : List Char) : List (Nat × RawUniform) :=
  scanUniformsIdxGo cs 0 0

/-- A canonical section name: nonempty, word characters only, and not the
reserved `DEFAULT`. -/
def goodName (s : String) : Bool :=
  !s.data.isEmpty && s.data.all isWordChar && s != "DEFAULT"

/-- A canonical key: nonempty, word characters only. -/
def goodKey (s : String) : Bool :=
  !s.data.isEmpty && s.data.all isWordChar

/-- A canonical value: stable under stripping (no leading or trailing
whitespace) and free of line breaks. -/
def goodVal (s : String) : Bool :=
  decide (s.data.dropWhile isPySpace = s.data) &&
  decide (s.data.reverse.dropWhile isPySpace = s.data.reverse) &&
  s.data.all (fun c => c != '\n' && c != '\r')

/-- A canonical `[Name]` header line. -/
def headerLineOf (n : String) : String :=
  "[" ++ n ++ "]"

/-- Render one section: its header line then its key lines. -/
def renderSection (p : String × List (String × String)) : List String :=
  headerLineOf p.1 :: p.2.map (fun q => kvLine q.1 q.2)

/-- Render a whole sectioned configuration. -/
def renderSpec (spec : List (String × List (String × String))) : List String :=
  (spec.map renderSection).flatten

/-- The rendered option lines of one section body. -/
def kvLines (kvs : List (String × String)) : List String :=
  kvs.map fun q => kvLine q.1 q.2

/-- A section body as the reader stores it (one collected line per value). -/
def rawVals (kvs : List (String × String)) : List (String × List String) :=
  kvs.map fun q => (q.1, [q.2])

/-- A whole spec as the reader stores it before the final join. -/
def specLists (spec : List (String × List (String × String))) :
    List (String × List (String × List String)) :=
  spec.map fun p => (p.1, rawVals p.2)

/-- All `(section, option)` pairs of a spec, in reading order. -/
def optPairs (spec : List (String × List (String × String))) :
    List (String × String) :=
  (spec.map fun p => p.2.map fun q => (p.1, q.1)).flatten

/-- The per-section casing map the first pass records for a rendered
section body. -/
def kmapOf (kvs : List (String × String)) : List (String × String) :=
  kvs.map fun q => (strLower q.1, q.1)

/-- The section casing map the first pass records for a rendered spec. -/
def smapOf (spec : List (String × List (String × String))) :
    List (String × String) :=
  spec.map fun p => (strLower p.1, p.1)

/-- The key casing map the first pass records for a rendered spec. -/
def kmapOf2 (spec : List (String × List (String × String))) :
    List (String × List (String × String)) :=
  spec.map fun p => (strLower p.1, kmapOf p.2)

theorem length_dropWhile_le (p : Char → Bool) (cs : List Char) :
    (cs.dropWhile p).length ≤ cs.length := by
  induction cs with
  | nil => simp [List.dropWhile]
  | cons c cs ih =>
    by_cases h : p c
    · simp only [List.dropWhile, h]
      exact Nat.le_succ_of_le ih
    · simp [List.dropWhile, h]

theorem munch1_length {p : Char → Bool} {cs run rest : List Char}
    (h : munch1 p cs = some (run, rest)) : rest.length < cs.length := by
  cases cs with
  | nil => simp [munch1] at h
  | cons c cs =>
    simp only [munch1] at h
    by_cases hp : p c
    · simp only [hp, if_pos, Option.some.injEq, Prod.mk.injEq] at h
      obtain ⟨-, rfl⟩ := h
      simp only [List.dropWhile, hp, List.length_cons]
      exact Nat.lt_succ_of_le (length_dropWhile_le p cs)
    · simp [hp] at h

theorem expectChar_length {c : Char} {cs rest : List Char}
    (h : expectChar c cs = some rest) : rest.length < cs.length := by
  cases cs with
  | nil => simp [expectChar] at h
  | cons x xs =>
    simp only [expectChar] at h
    by_cases hx : x = c
    · simp only [hx, if_pos, Option.some.injEq] at h
      subst h; simp
    · simp [hx] at h

theorem stripLit_length {lit cs rest : List Char}
    (h : stripLit lit cs = some rest) : rest.length + lit.length = cs.length := by
  induction lit generalizing cs with
  | nil => simp_all [stripLit]
  | cons l ls ih =>
    cases cs with
    | nil => simp [stripLit] at h
    | cons c cs =>
      simp only [stripLit] at h
      by_cases hc : c = l
      · simp only [hc, if_pos] at h
        have := ih h
        simp only [List.length_cons]
        omega
      · simp [hc] at h

theorem matchUniformTail_length {cs : List Char} {m : RawUniform} {rest : List Char}
    (h : matchUniformTail cs = some (m, rest)) : rest.length < cs.length := by
  unfold matchUniformTail at h
  rw [Option.bind_eq_some] at h
  obtain ⟨s1, h1, h⟩ := h
  rw [Option.bind_eq_some] at h
  obtain ⟨s2, h2, h⟩ := h
  rw [Option.bind_eq_some] at h
  obtain ⟨s3, h3, h⟩ := h
  rw [Option.bind_eq_some] at h
  obtain ⟨s4, h4, h⟩ := h
  rw [Option.bind_eq_some] at h
  obtain ⟨cs5, h5, h⟩ := h
  rw [Option.bind_eq_some] at h
  obtain ⟨cs6, h6, h⟩ := h
  rw [Option.bind_eq_some] at h
  obtain ⟨cs7, h7, h⟩ := h
  rw [Option.bind_eq_some] at h
  obtain ⟨rest', h8, h⟩ := h
  have hrest : rest' = rest := by
    by_cases he : (cs7.takeWhile (· ≠ ';')).isEmpty = true
    · rw [if_pos he] at h; cases h
    · rw [if_neg he] at h
      injection h with h'
      exact congrArg Prod.snd h'
  have l1 := munch1_length h1
  have l2 := munch1_length h2
  have l3 := munch1_length h3
  have l4 := munch1_length h4
  have l5 : cs5.length < s4.2.length :=
    lt_of_lt_of_le (expectChar_length h5) (length_dropWhile_le _ _)
  have l6 : cs6.length < cs5.length :=
    lt_of_lt_of_le (expectChar_length h6) (length_dropWhile_le _ _)
  have l7 : cs7.length < cs6.length :=
    lt_of_lt_of_le (expectChar_length h7) (length_dropWhile_le _ _)
  have l8 : rest'.length < cs7.length :=
    lt_of_lt_of_le (expectChar_length h8) (length_dropWhile_le _ _)
  rw [← hrest]
  omega

theorem optChar_length_le (c : Char) (cs : List Char) :
    (optChar c cs).length ≤ cs.length := by
  unfold optChar
  cases h : expectChar c cs with
  | none => exact Nat.le_refl _
  | some r => exact Nat.le_of_lt (expectChar_length h)

theorem matchDefineTail_length {cs : List Char} {kv : List Char × List Char}
    {rest : List Char} (h : matchDefineTail cs = some (kv, rest)) :
    rest.length < cs.length := by
  unfold matchDefineTail at h
  rw [Option.bind_eq_some] at h
  obtain ⟨s1, h1, h⟩ := h
  rw [Option.bind_eq_some] at h
  obtain ⟨s2, h2, h⟩ := h
  rw [Option.bind_eq_some] at h
  obtain ⟨s3, h3, h⟩ := h
  rw [Option.bind_eq_some] at h
  obtain ⟨s4, h4, h⟩ := h
  injection h with h'
  have hr : rest = s4.2 := (congrArg Prod.snd h').symm
  subst hr
  have l1 := munch1_length h1
  have l2 := munch1_length h2
  have l3 := munch1_length h3
  have l4 := munch1_length h4
  omega

theorem matchMetaAt_length {cs : List Char} {kv : List Char × List Char}
    {rest : List Char} (h : matchMetaAt cs = some (kv, rest)) :
    rest.length < cs.length := by
  unfold matchMetaAt at h
  rw [Option.bind_eq_some] at h
  obtain ⟨s1, h1, h⟩ := h
  rw [Option.bind_eq_some] at h
  obtain ⟨cs3, h3, h⟩ := h
  rw [Option.bind_eq_some] at h
  obtain ⟨s6, h6, h⟩ := h
  injection h with h'
  have hr : rest = optChar ';' (optChar '"' s6.2) := (congrArg Prod.snd h').symm
  subst hr
  have l1 := munch1_length h1
  have l3 : cs3.length < s1.2.length :=
    lt_of_lt_of_le (expectChar_length h3) (length_dropWhile_le _ _)
  have l6 : s6.2.length < cs3.length :=
    lt_of_lt_of_le
      (lt_of_lt_of_le (munch1_length h6) (optChar_length_le _ _))
      (length_dropWhile_le _ _)
  have l7 := optChar_length_le '"' s6.2
  have l8 := optChar_length_le ';' (optChar '"' s6.2)
  omega

theorem dictGet_dictSet_self (d : List (String × α)) (k : String) (v : α) :
    dictGet (dictSet d k v) k = some v := by
  induction d with
  | nil => simp [dictSet, dictGet, List.lookup]
  | cons p t ih =>
    obtain ⟨k1, v1⟩ := p
    by_cases h : k1 = k
    · subst h
      simp [dictSet, dictGet, List.lookup]
    · have hb : (k == k1) = false := beq_eq_false_iff_ne.mpr (Ne.symm h)
      simp only [dictSet, h, if_false, dictGet, List.lookup, hb] at *
      exact ih

theorem dictGet_dictSet_ne (d : List (String × α)) (k k' : String) (v : α)
    (h : k' ≠ k) : dictGet (dictSet d k v) k' = dictGet d k' := by
  have hb0 : (k' == k) = false := beq_eq_false_iff_ne.mpr h
  induction d with
  | nil => simp [dictSet, dictGet, List.lookup, hb0]
  | cons p t ih =>
    obtain ⟨k1, v1⟩ := p
    by_cases h1 : k1 = k
    · subst h1
      simp [dictSet, dictGet, List.lookup, hb0]
    · simp only [dictSet, h1, if_false, dictGet, List.lookup] at *
      by_cases h2 : k' = k1
      · subst h2
        simp
      · have hb : (k' == k1) = false := beq_eq_false_iff_ne.mpr h2
        simp only [hb]
        exact ih

theorem dictSet_absent (d : List (String × α)) (k : String) (v : α)
    (h : dictGet d k = none) : dictSet d k v = d ++ [(k, v)] := by
  induction d with
  | nil => simp [dictSet]
  | cons p t ih =>
    obtain ⟨k1, v1⟩ := p
    simp only [dictGet, List.lookup] at h
    by_cases h1 : k1 = k
    · subst h1
      simp at h
    · have hb : (k == k1) = false := beq_eq_false_iff_ne.mpr (Ne.symm h1)
      rw [hb] at h
      simp only [dictSet, h1, if_false, List.cons_append, List.cons.injEq, true_and]
      exact ih h

theorem dictGet_append (d1 d2 : List (String × α)) (k : String) :
    dictGet (d1 ++ d2) k =
      match dictGet d1 k with
      | some v => some v
      | none => dictGet d2 k := by
  induction d1 with
  | nil => simp [dictGet, List.lookup]
  | cons p t ih =>
    obtain ⟨k1, v1⟩ := p
    by_cases h1 : k = k1
    · subst h1
      simp [dictGet, List.lookup]
    · have hb : (k == k1) = false := beq_eq_false_iff_ne.mpr h1
      simp only [dictGet, List.lookup, List.cons_append, hb] at *
      exact ih

theorem charToLowerIdem (c : Char) : c.toLower.toLower = c.toLower := by
  unfold Char.toLower
  by_cases h : c.toNat ≥ 65 ∧ c.toNat ≤ 90
  · rw [if_pos h]
    have hv : (Char.ofNat (c.toNat + 32)).toNat = c.toNat + 32 := by
      obtain ⟨h1, h2⟩ := h
      interval_cases hn : c.toNat <;> decide
    rw [if_neg]
    rw [hv]
    omega
  · rw [if_neg h, if_neg h]

theorem strLower_idem (s : String) : strLower (strLower s) = strLower s := by
  simp only [strLower, List.map_map]
  congr 1
  exact List.map_congr_left fun c _ => charToLowerIdem c

/-- C10: with the target section entirely absent from the store (the
`DEFAULT` section always counts as present), `set_widgets_from_ini` returns
without assigning anything: defaults are not applied and every widget keeps
its previous value. -/
theorem C10_pull_noop_on_absent_section (cfg : IniConfig) (sec : String)
    (us : List Uniform) (ws : List (String × Widget))
    (h : iniContains cfg sec = false) :
    set_widgets_from_ini cfg sec us ws = ws := by
  simp [set_widgets_from_ini, h]

/-- Witness for C10 at a concrete store with no sections, a declaration
whose default differs from the widget's current text. -/
theorem C10_pull_noop_witness :
    iniContains ⟨[], []⟩ "Fx.fx" = false ∧
    set_widgets_from_ini ⟨[], []⟩ "Fx.fx"
      [{ type := "string", name := "N", meta := [], default := "b" }]
      [("N", Widget.line "a")] = [("N", Widget.line "a")] :=
  ⟨by decide, C10_pull_noop_on_absent_section ⟨[], []⟩ "Fx.fx"
    [{ type := "string", name := "N", meta := [], default := "b" }]
    [("N", Widget.line "a")] (by decide)⟩

/-- C3: the compatibility check succeeds exactly when every declaration's
underscore-stripped lowercased name matches some normalized key of the
target section (extra keys and extra sections never fail); on failure the
reported list holds exactly the original names of unmatched declarations.
The concrete conjuncts check `{Strength, MaxRadius}` against
`{strength, max_radius}` (ok) and against `{strength}` (missing
`MaxRadius`). -/
theorem C3_check_compatibility (us : List Uniform) (cfg : IniConfig) (sec : String) :
    ((checkCompatMissing us cfg sec = [] ↔
      ∀ u ∈ us, ∃ k ∈ iniKeysOf cfg sec, normkey u.name = normkey k) ∧
     (∀ n, n ∈ checkCompatMissing us cfg sec ↔
      ∃ u ∈ us, u.name = n ∧ ∀ k ∈ iniKeysOf cfg sec, normkey u.name ≠ normkey k)) ∧
    checkCompatMissing
      [{ type := "float", name := "Strength", meta := [], default := "0" },
       { type := "float", name := "MaxRadius", meta := [], default := "0" }]
      ⟨[], [("S", [("strength", "1"), ("max_radius", "2")])]⟩ "S" = [] ∧
    checkCompatMissing
      [{ type := "float", name := "Strength", meta := [], default := "0" },
       { type := "float", name := "MaxRadius", meta := [], default := "0" }]
      ⟨[], [("S", [("strength", "1")])]⟩ "S" = ["MaxRadius"] := by
  refine ⟨⟨?_, ?_⟩, by decide, by decide⟩
  · simp only [checkCompatMissing, List.map_eq_nil_iff, List.filter_eq_nil_iff,
      List.mem_map, Bool.not_eq_true', Bool.not_eq_false, List.contains_eq_any_beq,
      List.any_eq_true, beq_iff_eq]
    constructor
    · intro h u hu
      obtain ⟨x, ⟨k, hk, rfl⟩, he⟩ := h u hu
      exact ⟨k, hk, he⟩
    · intro h u hu
      obtain ⟨k, hk, he⟩ := h u hu
      exact ⟨normkey k, ⟨k, hk, rfl⟩, he⟩
  · intro n
    simp only [checkCompatMissing, List.mem_map, List.mem_filter,
      Bool.not_eq_true', List.contains_eq_any_beq, List.any_eq_false, beq_iff_eq]
    constructor
    · rintro ⟨u, ⟨hu, hc⟩, rfl⟩
      refine ⟨u, hu, rfl, fun k hk he => ?_⟩
      exact hc (normkey k) ⟨k, hk, rfl⟩ he
    · rintro ⟨u, hu, rfl, hc⟩
      refine ⟨u, ⟨hu, fun x hx he => ?_⟩, rfl⟩
      obtain ⟨k, hk, rfl⟩ := hx
      exact hc k hk he

theorem dictGet_dictMapAt_self (d : List (String × β)) (k : String) (f : β → β) :
    dictGet (dictMapAt d k f) k = (dictGet d k).map f := by
  induction d with
  | nil => simp [dictMapAt, dictGet, List.lookup]
  | cons p t ih =>
    obtain ⟨k1, v1⟩ := p
    by_cases h : k1 = k
    · subst h
      simp [dictMapAt, dictGet, List.lookup]
    · have hb : (k == k1) = false := beq_eq_false_iff_ne.mpr (Ne.symm h)
      simp only [dictMapAt, h, if_false, dictGet, List.lookup, hb] at *
      exact ih

theorem dictGet_dictMapAt_ne (d : List (String × β)) (k k' : String) (f : β → β)
    (h : k' ≠ k) : dictGet (dictMapAt d k f) k' = dictGet d k' := by
  induction d with
  | nil => simp [dictMapAt, dictGet, List.lookup]
  | cons p t ih =>
    obtain ⟨k1, v1⟩ := p
    by_cases h1 : k1 = k
    · subst h1
      have hb : (k' == k1) = false := beq_eq_false_iff_ne.mpr h
      simp only [dictMapAt, if_pos rfl, dictGet, List.lookup, hb] at *
    · simp only [dictMapAt, h1, if_false, dictGet, List.lookup] at *
      by_cases h2 : k' = k1
      · subst h2
        simp
      · have hb : (k' == k1) = false := beq_eq_false_iff_ne.mpr h2
        simp only [hb]
        exact ih

theorem pullStep_lookup_ne (cfg : IniConfig) (sec : String)
    (wmap : List (String × Widget)) (u : Uniform) (nm : String)
    (h : u.name ≠ nm) :
    dictGet (pullStep cfg sec wmap u) nm = dictGet wmap nm := by
  unfold pullStep
  cases dictGet wmap u.name with
  | none => rfl
  | some w => exact dictGet_dictSet_ne _ _ _ _ (Ne.symm h)

theorem pull_fold_preserves (cfg : IniConfig) (sec : String) (us : List Uniform)
    (nm : String) (h : ∀ u ∈ us, u.name ≠ nm) :
    ∀ wmap, dictGet (us.foldl (pullStep cfg sec) wmap) nm = dictGet wmap nm := by
  induction us with
  | nil => intro wmap; rfl
  | cons x rest ih =>
    intro wmap
    simp only [List.foldl_cons]
    rw [ih (fun u hu => h u (List.mem_cons_of_mem x hu))]
    exact pullStep_lookup_ne cfg sec wmap x nm (h x (List.mem_cons_self x rest))

theorem pull_fold_lookup (cfg : IniConfig) (sec : String) :
    ∀ (us : List Uniform) (wmap : List (String × Widget)) (u : Uniform),
      u ∈ us → (us.map (fun x => x.name)).Nodup →
      dictGet (us.foldl (pullStep cfg sec) wmap) u.name =
        (dictGet wmap u.name).map
          (fun w => trySetWidget w ((iniGet cfg sec u.name).getD u.default)) := by
  intro us
  induction us with
  | nil => intro _ _ hmem; cases hmem
  | cons x rest ih =>
    intro wmap u hu hnd
    simp only [List.map_cons, List.nodup_cons, List.mem_map] at hnd
    obtain ⟨hx, hndr⟩ := hnd
    simp only [List.foldl_cons]
    rcases List.mem_cons.mp hu with rfl | hmem
    · have hrest : ∀ z ∈ rest, z.name ≠ u.name := by
        intro z hz he
        exact hx ⟨z, hz, he⟩
      rw [pull_fold_preserves cfg sec rest u.name hrest]
      unfold pullStep
      cases hw : dictGet wmap u.name with
      | none => simp [hw]
      | some w => simp [hw, dictGet_dictSet_self]
    · have hxu : x.name ≠ u.name := by
        intro he
        exact hx ⟨u, hmem, he.symm⟩
      rw [ih (pullStep cfg sec wmap x) u hmem hndr]
      rw [pullStep_lookup_ne cfg sec wmap x u.name hxu]

/-- C4 (amended: the target section must be present, else `pullValues` is a
no-op — see C10): each declaration with a widget receives the section value
looked up by its exact name, falling back to the declaration's default; the
value is interpreted per widget kind (`int` parse for combo boxes, `float`
parse for spin boxes, the case-insensitive truth set `{1, true, yes}` for
checkboxes, pass-through for text), and a failed parse is swallowed leaving
the previously-held widget state unchanged. -/
theorem C4_pull_values_amended (cfg : IniConfig) (sec : String) (us : List Uniform)
    (ws : List (String × Widget)) (hsec : iniContains cfg sec = true)
    (hnodup : (us.map (fun u => u.name)).Nodup) :
    (∀ u ∈ us,
      dictGet (set_widgets_from_ini cfg sec us ws) u.name =
        (dictGet ws u.name).map
          (fun w => trySetWidget w ((iniGet cfg sec u.name).getD u.default))) ∧
    (∀ i v, pyIntParse v = none → trySetWidget (Widget.combo i) v = Widget.combo i) ∧
    (∀ i v n, pyIntParse v = some n → trySetWidget (Widget.combo i) v = Widget.combo n) ∧
    (∀ t v, pyFloatOk v = false → trySetWidget (Widget.spin t) v = Widget.spin t) ∧
    (∀ t v, pyFloatOk v = true → trySetWidget (Widget.spin t) v = Widget.spin v) ∧
    (∀ t v, pyFloatOk v = false → trySetWidget (Widget.dspin t) v = Widget.dspin t) ∧
    (∀ t v, pyFloatOk v = true → trySetWidget (Widget.dspin t) v = Widget.dspin v) ∧
    (∀ b v, trySetWidget (Widget.check b) v = Widget.check (truthy v)) ∧
    (∀ t v, trySetWidget (Widget.line t) v = Widget.line v) := by
  refine ⟨?_, ?_, ?_, ?_, ?_, ?_, ?_, ?_, ?_⟩
  · intro u hu
    simp only [set_widgets_from_ini, hsec, Bool.not_true, Bool.false_eq_true,
      if_false]
    exact pull_fold_lookup cfg sec us ws u hu hnodup
  · intro i v h; simp [trySetWidget, h]
  · intro i v n h; simp [trySetWidget, h]
  · intro t v h; simp [trySetWidget, h]
  · intro t v h; simp [trySetWidget, h]
  · intro t v h; simp [trySetWidget, h]
  · intro t v h; simp [trySetWidget, h]
  · intro b v; simp [trySetWidget]
  · intro t v; simp [trySetWidget]

/-- Witness for C4 at a concrete store, declaration and widget map. -/
theorem C4_pull_values_witness :
    dictGet (set_widgets_from_ini ⟨[], [("S", [("N", "2.5")])]⟩ "S"
      [{ type := "float", name := "N", meta := [], default := "0.0" }]
      [("N", Widget.dspin "1.0")]) "N" = some (Widget.dspin "2.5") :=
  ((C4_pull_values_amended ⟨[], [("S", [("N", "2.5")])]⟩ "S"
      [{ type := "float", name := "N", meta := [], default := "0.0" }]
      [("N", Widget.dspin "1.0")] (by decide) (by decide)).1
    { type := "float", name := "N", meta := [], default := "0.0" }
    (by decide)).trans (by decide)

/-- C4 counterexample to the claim as stated: with the target section
entirely absent, the section lacks every key, yet the declaration's parsed
default (`"b"`, which the per-kind interpretation would apply as shown) is
not applied — the widget keeps its previous text `"a"`. -/
theorem C4_pull_values_counterexample :
    set_widgets_from_ini ⟨[], []⟩ "S"
      [{ type := "string", name := "M", meta := [], default := "b" }]
      [("M", Widget.line "a")] = [("M", Widget.line "a")] ∧
    trySetWidget (Widget.line "a") "b" = Widget.line "b" ∧
    Widget.line "a" ≠ Widget.line "b" := by
  refine ⟨?_, by decide, by decide⟩
  decide

theorem dictGet_dictMapAt_isSome (d : List (String × β)) (k s : String) (f : β → β) :
    (dictGet (dictMapAt d k f) s).isSome = (dictGet d s).isSome := by
  by_cases h : s = k
  · subst h
    rw [dictGet_dictMapAt_self]
    cases dictGet d s <;> simp
  · rw [dictGet_dictMapAt_ne d k s f h]

theorem iniSet_defaults (cfg : IniConfig) (sec k v : String)
    (h1 : sec ≠ "") (h2 : sec ≠ "DEFAULT") :
    (iniSet cfg sec k v).defaults = cfg.defaults := by
  simp [iniSet, h1, h2]

theorem iniSet_sections_ne (cfg : IniConfig) (sec k v s : String) (hs : s ≠ sec) :
    dictGet (iniSet cfg sec k v).sections s = dictGet cfg.sections s := by
  unfold iniSet
  by_cases hd : (decide (sec = "") || decide (sec = "DEFAULT")) = true
  · rw [if_pos hd]
  · rw [if_neg hd]
    exact dictGet_dictMapAt_ne cfg.sections sec s _ hs

theorem hasSection_iniSet (cfg : IniConfig) (sec k v s : String) :
    hasSection (iniSet cfg sec k v) s = hasSection cfg s := by
  unfold iniSet hasSection
  by_cases hd : (decide (sec = "") || decide (sec = "DEFAULT")) = true
  · rw [if_pos hd]
  · rw [if_neg hd]
    exact dictGet_dictMapAt_isSome cfg.sections sec s _

theorem sectDict_iniSet_self (cfg : IniConfig) (sec k v : String)
    (h1 : sec ≠ "") (h2 : sec ≠ "DEFAULT") (hhas : hasSection cfg sec = true) :
    sectDict (iniSet cfg sec k v) sec = dictSet (sectDict cfg sec) k v := by
  unfold iniSet sectDict
  rw [if_neg (by simp [h1, h2])]
  simp only
  have := dictGet_dictMapAt_self cfg.sections sec (fun d => dictSet d k v)
  unfold dictGet at this
  rw [this]
  unfold hasSection at hhas
  obtain ⟨d, hd⟩ := Option.isSome_iff_exists.mp hhas
  rw [hd]
  rfl

theorem sectDict_iniSet_lookup_ne (cfg : IniConfig) (sec n v k : String)
    (h1 : sec ≠ "") (h2 : sec ≠ "DEFAULT") (hk : k ≠ n) :
    (sectDict (iniSet cfg sec n v) sec).lookup k = (sectDict cfg sec).lookup k := by
  unfold iniSet sectDict
  rw [if_neg (by simp [h1, h2])]
  simp only
  have := dictGet_dictMapAt_self cfg.sections sec (fun d => dictSet d n v)
  unfold dictGet at this
  rw [this]
  cases hd : cfg.sections.lookup sec with
  | none => rfl
  | some d =>
    simp only [Option.map_some, Option.getD_some]
    exact dictGet_dictSet_ne d n k v hk

theorem sectDict_iniSet_isSome (cfg : IniConfig) (sec n v k : String)
    (h1 : sec ≠ "") (h2 : sec ≠ "DEFAULT")
    (h : ((sectDict cfg sec).lookup k).isSome = true) :
    ((sectDict (iniSet cfg sec n v) sec).lookup k).isSome = true := by
  by_cases hk : k = n
  · subst hk
    have hhas : hasSection cfg sec = true := by
      unfold hasSection
      unfold sectDict at h
      cases hd : cfg.sections.lookup sec with
      | none => rw [hd] at h; simp [List.lookup] at h
      | some d => simp [hd]
    rw [sectDict_iniSet_self cfg sec k v h1 h2 hhas]
    have := dictGet_dictSet_self (sectDict cfg sec) k v
    unfold dictGet at this
    rw [this]
    rfl
  · rw [sectDict_iniSet_lookup_ne cfg sec n v k h1 h2 hk]
    exact h

theorem lookup_append (d1 d2 : List (String × α)) (k : String) :
    List.lookup k (d1 ++ d2) =
      match List.lookup k d1 with
      | some v => some v
      | none => List.lookup k d2 :=
  dictGet_append d1 d2 k

theorem push_fold_defaults (sec : String) (ws : List (String × Widget))
    (h1 : sec ≠ "") (h2 : sec ≠ "DEFAULT") (us : List Uniform) :
    ∀ c, (us.foldl (pushStep sec ws) c).defaults = c.defaults := by
  induction us with
  | nil => intro c; rfl
  | cons x rest ih =>
    intro c
    simp only [List.foldl_cons]
    rw [ih]
    unfold pushStep
    cases dictGet ws x.name with
    | none => rfl
    | some w => exact iniSet_defaults c sec x.name (widgetToStr w) h1 h2

theorem push_fold_sections_ne (sec : String) (ws : List (String × Widget))
    (s : String) (hs : s ≠ sec) (us : List Uniform) :
    ∀ c, dictGet (us.foldl (pushStep sec ws) c).sections s = dictGet c.sections s := by
  induction us with
  | nil => intro c; rfl
  | cons x rest ih =>
    intro c
    simp only [List.foldl_cons]
    rw [ih]
    unfold pushStep
    cases dictGet ws x.name with
    | none => rfl
    | some w => exact iniSet_sections_ne c sec x.name (widgetToStr w) s hs

theorem push_fold_hasSection (sec : String) (ws : List (String × Widget))
    (us : List Uniform) :
    ∀ c, hasSection (us.foldl (pushStep sec ws) c) sec = hasSection c sec := by
  induction us with
  | nil => intro c; rfl
  | cons x rest ih =>
    intro c
    simp only [List.foldl_cons]
    rw [ih]
    unfold pushStep
    cases dictGet ws x.name with
    | none => rfl
    | some w => exact hasSection_iniSet c sec x.name (widgetToStr w) sec

theorem push_fold_lookup_ne (sec : String) (ws : List (String × Widget))
    (h1 : sec ≠ "") (h2 : sec ≠ "DEFAULT") (k : String) (us : List Uniform)
    (hk : ∀ u ∈ us, u.name = k → dictGet ws u.name = none) :
    ∀ c, (sectDict (us.foldl (pushStep sec ws) c) sec).lookup k =
      (sectDict c sec).lookup k := by
  induction us with
  | nil => intro c; rfl
  | cons x rest ih =>
    intro c
    simp only [List.foldl_cons]
    rw [ih (fun u hu => hk u (List.mem_cons_of_mem x hu))]
    unfold pushStep
    cases hw : dictGet ws x.name with
    | none => rfl
    | some w =>
      have hne : k ≠ x.name := by
        intro he
        have := hk x (List.mem_cons_self x rest) he.symm
        rw [hw] at this
        cases this
      exact sectDict_iniSet_lookup_ne c sec x.name (widgetToStr w) k h1 h2 hne

theorem push_fold_isSome (sec : String) (ws : List (String × Widget))
    (h1 : sec ≠ "") (h2 : sec ≠ "DEFAULT") (k : String) (us : List Uniform) :
    ∀ c, ((sectDict c sec).lookup k).isSome = true →
      ((sectDict (us.foldl (pushStep sec ws) c) sec).lookup k).isSome = true := by
  induction us with
  | nil => intro c h; exact h
  | cons x rest ih =>
    intro c h
    simp only [List.foldl_cons]
    refine ih _ ?_
    unfold pushStep
    cases dictGet ws x.name with
    | none => exact h
    | some w => exact sectDict_iniSet_isSome c sec x.name (widgetToStr w) k h1 h2 h

theorem push_fold_written (sec : String) (ws : List (String × Widget))
    (h1 : sec ≠ "") (h2 : sec ≠ "DEFAULT") :
    ∀ (us : List Uniform) (c : IniConfig) (u : Uniform) (w : Widget),
      u ∈ us → (us.map (fun x => x.name)).Nodup →
      dictGet ws u.name = some w → hasSection c sec = true →
      (sectDict (us.foldl (pushStep sec ws) c) sec).lookup u.name =
        some (widgetToStr w) := by
  intro us
  induction us with
  | nil => intro _ _ _ hmem; cases hmem
  | cons x rest ih =>
    intro c u w hu hnd hw hhas
    simp only [List.map_cons, List.nodup_cons, List.mem_map] at hnd
    obtain ⟨hx, hndr⟩ := hnd
    simp only [List.foldl_cons]
    rcases List.mem_cons.mp hu with rfl | hmem
    · have hrest : ∀ z ∈ rest, z.name = u.name → dictGet ws z.name = none := by
        intro z hz he
        exact absurd ⟨z, hz, he⟩ hx
      rw [push_fold_lookup_ne sec ws h1 h2 u.name rest hrest]
      unfold pushStep
      rw [hw]
      rw [sectDict_iniSet_self c sec u.name (widgetToStr w) h1 h2 hhas]
      have := dictGet_dictSet_self (sectDict c sec) u.name (widgetToStr w)
      unfold dictGet at this
      exact this
    · refine ih _ u w hmem hndr hw ?_
      unfold pushStep
      cases dictGet ws x.name with
      | none => exact hhas
      | some w2 => rw [hasSection_iniSet c sec x.name (widgetToStr w2) sec]; exact hhas

/-- C5: `update_ini_from_widgets` creates the target section when absent,
writes each declaration's per-kind serialized widget value (combo index and
numeric value as decimal strings, checkbox as `"1"`/`"0"`, text raw) under
the declaration's exact name, and leaves the defaults, every other section
and every key not named by a widget-backed declaration exactly as before —
no key is ever deleted. -/
theorem C5_push_values (cfg : IniConfig) (sec : String) (us : List Uniform)
    (ws : List (String × Widget)) (h1 : sec ≠ "") (h2 : sec ≠ "DEFAULT")
    (hnodup : (us.map (fun u => u.name)).Nodup) :
    hasSection (update_ini_from_widgets cfg sec us ws) sec = true ∧
    (update_ini_from_widgets cfg sec us ws).defaults = cfg.defaults ∧
    (∀ s, s ≠ sec →
      dictGet (update_ini_from_widgets cfg sec us ws).sections s =
        dictGet cfg.sections s) ∧
    (∀ k, (∀ u ∈ us, u.name = k → dictGet ws u.name = none) →
      (sectDict (update_ini_from_widgets cfg sec us ws) sec).lookup k =
        (sectDict cfg sec).lookup k) ∧
    (∀ k, ((sectDict cfg sec).lookup k).isSome = true →
      ((sectDict (update_ini_from_widgets cfg sec us ws) sec).lookup k).isSome = true) ∧
    (∀ u ∈ us, ∀ w, dictGet ws u.name = some w →
      (sectDict (update_ini_from_widgets cfg sec us ws) sec).lookup u.name =
        some (widgetToStr w)) := by
  have hbase : ∀ P : IniConfig → Prop,
      P (if iniContains cfg sec then cfg else addSection cfg sec) →
      P (if iniContains cfg sec then cfg else addSection cfg sec) := fun _ h => h
  have hhas0 : hasSection (if iniContains cfg sec = true then cfg
      else addSection cfg sec) sec = true := by
    by_cases hc : iniContains cfg sec = true
    · rw [if_pos hc]
      unfold iniContains at hc
      rcases Bool.or_eq_true_iff.mp hc with hd | hs
      · exact absurd (by simpa using hd) h2
      · exact hs
    · rw [if_neg hc]
      unfold hasSection addSection
      simp only
      rw [lookup_append]
      cases hl : List.lookup sec cfg.sections with
      | none => simp [List.lookup]
      | some d => simp
  have hsd0 : ∀ k, (sectDict (if iniContains cfg sec = true then cfg
      else addSection cfg sec) sec).lookup k = (sectDict cfg sec).lookup k := by
    intro k
    by_cases hc : iniContains cfg sec = true
    · rw [if_pos hc]
    · rw [if_neg hc]
      unfold sectDict addSection
      simp only
      have hnone : List.lookup sec cfg.sections = none := by
        unfold iniContains at hc
        cases hl : List.lookup sec cfg.sections with
        | none => rfl
        | some d =>
          exfalso
          apply hc
          unfold hasSection
          rw [Bool.or_eq_true_iff]
          right
          simp [hl]
      rw [lookup_append, hnone]
      simp [List.lookup]
  have hsecs0 : ∀ s, s ≠ sec →
      dictGet (if iniContains cfg sec = true then cfg
        else addSection cfg sec).sections s = dictGet cfg.sections s := by
    intro s hs
    by_cases hc : iniContains cfg sec = true
    · rw [if_pos hc]
    · rw [if_neg hc]
      unfold addSection dictGet
      simp only
      rw [lookup_append]
      cases hl : List.lookup s cfg.sections with
      | none =>
        have hb : (s == sec) = false := beq_eq_false_iff_ne.mpr hs
        simp [hl, List.lookup, hb]
      | some d => simp [hl]
  have hdef0 : (if iniContains cfg sec = true then cfg
      else addSection cfg sec).defaults = cfg.defaults := by
    by_cases hc : iniContains cfg sec = true
    · rw [if_pos hc]
    · rw [if_neg hc]; rfl
  unfold update_ini_from_widgets
  refine ⟨?_, ?_, ?_, ?_, ?_, ?_⟩
  · rw [push_fold_hasSection sec ws us _]
    exact hhas0
  · rw [push_fold_defaults sec ws h1 h2 us _]
    exact hdef0
  · intro s hs
    rw [push_fold_sections_ne sec ws s hs us _]
    exact hsecs0 s hs
  · intro k hk
    rw [push_fold_lookup_ne sec ws h1 h2 k us hk _]
    exact hsd0 k
  · intro k hk
    refine push_fold_isSome sec ws h1 h2 k us _ ?_
    rw [hsd0 k]
    exact hk
  · intro u hu w hw
    exact push_fold_written sec ws h1 h2 us _ u w hu hnodup hw hhas0

/-- Witness for C5 at a concrete store: the widget value lands under the
declaration's name, the untouched key and the other section survive. -/
theorem C5_push_values_witness :
    (sectDict (update_ini_from_widgets
        ⟨[], [("S", [("keep", "7")]), ("T", [("z", "9")])]⟩ "S"
        [{ type := "float", name := "N", meta := [], default := "0" }]
        [("N", Widget.check true)]) "S").lookup "N" = some "1" :=
  ((C5_push_values ⟨[], [("S", [("keep", "7")]), ("T", [("z", "9")])]⟩ "S"
      [{ type := "float", name := "N", meta := [], default := "0" }]
      [("N", Widget.check true)] (by decide) (by decide) (by decide)).2.2.2.2.2
    { type := "float", name := "N", meta := [], default := "0" }
    (by decide) (Widget.check true) (by decide)).trans (by decide)

theorem resolveMinMaxKey_get_self (defines md : List (String × String)) (k : String) :
    dictGet (resolveMinMaxKey defines md k) k =
      resolvedVal defines (if k = "ui_min" then "0" else "100") (dictGet md k) := by
  cases hv : dictGet md k with
  | none => simp [resolveMinMaxKey, resolvedVal, hv]
  | some v =>
    by_cases hcond : (decide (v ≠ "") && !numericLit v) = true
    · simp only [resolveMinMaxKey, resolvedVal, hv, hcond, if_true]
      cases hd : dictGet defines v with
      | none => simp [dictGet_dictSet_self, hd]
      | some dv => simp [dictGet_dictSet_self, hd]
    · simp only [resolveMinMaxKey, resolvedVal, hv, hcond, if_false]
      exact hv

theorem resolveMinMaxKey_get_ne (defines md : List (String × String)) (k k' : String)
    (h : k' ≠ k) :
    dictGet (resolveMinMaxKey defines md k) k' = dictGet md k' := by
  cases hv : dictGet md k with
  | none => simp [resolveMinMaxKey, hv]
  | some v =>
    by_cases hcond : (decide (v ≠ "") && !numericLit v) = true
    · simp only [resolveMinMaxKey, hv, hcond, if_true]
      cases hd : dictGet defines v with
      | none => simp only [hd]; exact dictGet_dictSet_ne md k k' _ h
      | some dv => simp only [hd]; exact dictGet_dictSet_ne md k k' dv h
    · have hcond2 : ¬(¬v = "" ∧ numericLit v = false) := by simpa using hcond
      simp [resolveMinMaxKey, hv, hcond2]

/-- C6: in every parsed declaration, the `ui_min`/`ui_max` metadata values
are the raw extracted values when these are bare numeric literals, and are
otherwise replaced by the `#define` binding of that name when present and
by the fixed fallback (`"0"` for `ui_min`, `"100"` for `ui_max`) otherwise,
never failing.  The second conjunct checks the specification's concrete
example, whose `ui_max` resolves to `"2.0"`. -/
theorem C6_minmax_resolution (text : String) (i : Nat) (u : Uniform)
    (h : (parse_fx_uniforms text)[i]? = some u) :
    (∃ raw, (scanUniforms text.data)[i]? = some raw ∧
      dictGet u.meta "ui_min" =
        resolvedVal (definesOf text) "0" (dictGet (metaDictOf raw) "ui_min") ∧
      dictGet u.meta "ui_max" =
        resolvedVal (definesOf text) "100" (dictGet (metaDictOf raw) "ui_max")) ∧
    parse_fx_uniforms
      "#define MAX_STR 2.0\nuniform float Strength <ui_min=0.0; ui_max=MAX_STR;> = 0.5;"
      = [{ type := "float", name := "Strength",
           meta := [("ui_min", "0.0"), ("ui_max", "2.0")], default := "0.5" }] := by
  constructor
  · unfold parse_fx_uniforms at h
    rw [List.getElem?_map] at h
    cases hs : (scanUniforms text.data)[i]? with
    | none => rw [hs] at h; cases h
    | some raw =>
      rw [hs] at h
      simp only [Option.map_some'] at h
      injection h with h2
      refine ⟨raw, rfl, ?_, ?_⟩
      · rw [← h2]
        unfold buildUniform
        simp only
        rw [resolveMinMaxKey_get_ne (definesOf text) _ "ui_max" "ui_min" (by decide)]
        have := resolveMinMaxKey_get_self (definesOf text) (metaDictOf raw) "ui_min"
        rw [this, if_pos rfl]
      · rw [← h2]
        unfold buildUniform
        simp only
        have := resolveMinMaxKey_get_self (definesOf text)
          (resolveMinMaxKey (definesOf text) (metaDictOf raw) "ui_min") "ui_max"
        rw [this, if_neg (by decide),
          resolveMinMaxKey_get_ne (definesOf text) (metaDictOf raw) "ui_min" "ui_max"
            (by decide)]
  · decide

/-- Witness for C6 at the specification's concrete example text. -/
theorem C6_minmax_resolution_witness :
    (∃ raw, (scanUniforms ("#define MAX_STR 2.0\nuniform float Strength <ui_min=0.0; ui_max=MAX_STR;> = 0.5;" : String).data)[0]? = some raw ∧
      dictGet (Uniform.mk "float" "Strength"
        [("ui_min", "0.0"), ("ui_max", "2.0")] "0.5").meta "ui_min" =
        resolvedVal (definesOf "#define MAX_STR 2.0\nuniform float Strength <ui_min=0.0; ui_max=MAX_STR;> = 0.5;") "0" (dictGet (metaDictOf raw) "ui_min") ∧
      dictGet (Uniform.mk "float" "Strength"
        [("ui_min", "0.0"), ("ui_max", "2.0")] "0.5").meta "ui_max" =
        resolvedVal (definesOf "#define MAX_STR 2.0\nuniform float Strength <ui_min=0.0; ui_max=MAX_STR;> = 0.5;") "100" (dictGet (metaDictOf raw) "ui_max")) ∧
    parse_fx_uniforms
      "#define MAX_STR 2.0\nuniform float Strength <ui_min=0.0; ui_max=MAX_STR;> = 0.5;"
      = [{ type := "float", name := "Strength",
           meta := [("ui_min", "0.0"), ("ui_max", "2.0")], default := "0.5" }] :=
  C6_minmax_resolution
    "#define MAX_STR 2.0\nuniform float Strength <ui_min=0.0; ui_max=MAX_STR;> = 0.5;"
    0
    { type := "float", name := "Strength",
      meta := [("ui_min", "0.0"), ("ui_max", "2.0")], default := "0.5" }
    (by decide)

theorem scanUniformsGo_eq_idx :
    ∀ (cs : List Char) (skip pos : Nat),
      scanUniformsGo cs skip = (scanUniformsIdxGo cs skip pos).map Prod.snd := by
  intro cs
  induction cs with
  | nil => intro skip pos; rfl
  | cons c cs ih =>
    intro skip pos
    cases skip with
    | succ n => simp only [scanUniformsGo, scanUniformsIdxGo]; exact ih n (pos + 1)
    | zero =>
      cases hm : uniformMatchAt (c :: cs) with
      | some p =>
        obtain ⟨m, consumed⟩ := p
        simp only [scanUniformsGo, scanUniformsIdxGo, hm, List.map_cons,
          List.cons.injEq, true_and]
        exact ih (consumed - 1) (pos + 1)
      | none =>
        simp only [scanUniformsGo, scanUniformsIdxGo, hm]
        exact ih 0 (pos + 1)

theorem scanUniformsIdxGo_ge :
    ∀ (cs : List Char) (skip pos : Nat) (p : Nat × RawUniform),
      p ∈ scanUniformsIdxGo cs skip pos → pos ≤ p.1 := by
  intro cs
  induction cs with
  | nil => intro skip pos p hp; cases hp
  | cons c cs ih =>
    intro skip pos p hp
    cases skip with
    | succ n =>
      simp only [scanUniformsIdxGo] at hp
      exact Nat.le_of_succ_le (ih n (pos + 1) p hp)
    | zero =>
      cases hm : uniformMatchAt (c :: cs) with
      | some q =>
        obtain ⟨m, consumed⟩ := q
        simp only [scanUniformsIdxGo, hm, List.mem_cons] at hp
        rcases hp with rfl | hp
        · exact Nat.le_refl _
        · exact Nat.le_of_succ_le (ih (consumed - 1) (pos + 1) p hp)
      | none =>
        simp only [scanUniformsIdxGo, hm] at hp
        exact Nat.le_of_succ_le (ih 0 (pos + 1) p hp)

theorem scanUniformsIdxGo_sorted :
    ∀ (cs : List Char) (skip pos : Nat),
      (scanUniformsIdxGo cs skip pos).Pairwise (fun a b => a.1 < b.1) := by
  intro cs
  induction cs with
  | nil => intro skip pos; exact List.Pairwise.nil
  | cons c cs ih =>
    intro skip pos
    cases skip with
    | succ n => simp only [scanUniformsIdxGo]; exact ih n (pos + 1)
    | zero =>
      cases hm : uniformMatchAt (c :: cs) with
      | some q =>
        obtain ⟨m, consumed⟩ := q
        simp only [scanUniformsIdxGo, hm]
        refine List.Pairwise.cons ?_ (ih (consumed - 1) (pos + 1))
        intro b hb
        exact Nat.lt_of_succ_le (scanUniformsIdxGo_ge cs (consumed - 1) (pos + 1) b hb)
      | none =>
        simp only [scanUniformsIdxGo, hm]
        exact ih 0 (pos + 1)

theorem buildWidgets_fold_lookup (nm : String) :
    ∀ (us : List Uniform) (m0 : List (String × Widget)),
      dictGet (us.foldl (fun m u => dictSet m u.name (make_widget u)) m0) nm =
        match us.reverse.find? (fun u => u.name == nm) with
        | some u => some (make_widget u)
        | none => dictGet m0 nm := by
  intro us
  induction us using List.reverseRecOn with
  | nil => intro m0; rfl
  | append_singleton xs x ih =>
    intro m0
    rw [List.foldl_append]
    simp only [List.foldl_cons, List.foldl_nil, List.reverse_append,
      List.reverse_singleton, List.singleton_append, List.find?]
    cases hx : (x.name == nm) with
    | true =>
      have he : x.name = nm := by simpa using hx
      subst he
      exact dictGet_dictSet_self _ _ _
    | false =>
      have hne : nm ≠ x.name := by
        intro he
        subst he
        simp at hx
      rw [dictGet_dictSet_ne _ _ _ _ hne]
      exact ih m0

/-- C8 counterexample to the claim as stated: a shader source declaring the
same uniform name twice yields a declaration list in which that name occurs
twice — `parse_fx_uniforms` never de-duplicates. -/
theorem C8_schema_counterexample :
    (parse_fx_uniforms
      "uniform float A <x=1;> = 1;\nuniform float A <x=1;> = 2;").map
        (fun u => u.name) = ["A", "A"] ∧
    ¬(["A", "A"] : List String).Nodup := by
  exact ⟨by decide, by decide⟩

/-- C8 (amended): the declaration list preserves source order — it is the
list of pattern matches at strictly increasing source positions — but a
name declared more than once yields one entry per occurrence; uniqueness
with last-occurrence-wins arises only downstream, in the widget map
`build_form` keys by name, where the last occurrence's widget survives. -/
theorem C8_schema_order_amended :
    (∀ text, parse_fx_uniforms text =
      ((scanUniformsIdx text.data).map Prod.snd).map
        (buildUniform (definesOf text))) ∧
    (∀ cs, (scanUniformsIdx cs).Pairwise (fun a b => a.1 < b.1)) ∧
    (∀ us nm, dictGet (buildWidgets us) nm =
      (us.reverse.find? (fun u => u.name == nm)).map make_widget) := by
  refine ⟨?_, ?_, ?_⟩
  · intro text
    unfold parse_fx_uniforms scanUniforms scanUniformsIdx
    rw [scanUniformsGo_eq_idx text.data 0 0]
  · intro cs
    exact scanUniformsIdxGo_sorted cs 0 0
  · intro us nm
    unfold buildWidgets
    rw [buildWidgets_fold_lookup nm us []]
    cases us.reverse.find? (fun u => u.name == nm) with
    | none => rfl
    | some u => rfl

/-- C2 counterexample to the claim as stated: the line `x` is neither a
section header nor a key line, and instead of being silently ignored it
makes the structured parser raise a `ParsingError` that `parse_ini` does
not catch — an exception other than `DuplicateSection` escapes. -/
theorem C2_parse_error_counterexample :
    parse_ini ["x"] = ParseIniResult.raised ReadErr.parsingError ∧
    sectHeaderName (pstrip "x") = none ∧
    splitOptLine (pstrip "x") = none := by
  exact ⟨by decide, by decide, by decide⟩

/-- C2 (amended): `parse_ini` returns the nil-store `DuplicateSection`
signal (with both casing maps) exactly when the structured read of the
effective, possibly `[GLOBAL]`-prefixed text raises `DuplicateSectionError`;
every other reader error — `ParsingError` from malformed non-section,
non-key lines, `DuplicateOptionError` from a repeated key, and
`MissingSectionHeaderError` — escapes `parse_ini` uncaught rather than
being silently ignored; parsing succeeds exactly when the reader does.
The last conjunct checks the duplicate-header example `[A]`, `[A]`. -/
theorem C2_error_classification_amended (lines : List String) :
    (∀ n, (∃ smap kmap, parse_ini lines = ParseIniResult.dupSignal smap kmap n) ↔
      readString (effectiveLines lines) = Except.error (ReadErr.dupSection n)) ∧
    (∀ e, parse_ini lines = ParseIniResult.raised e ↔
      (readString (effectiveLines lines) = Except.error e ∧
        ∀ n, e ≠ ReadErr.dupSection n)) ∧
    ((∃ cfg smap kmap, parse_ini lines = ParseIniResult.ok cfg smap kmap) ↔
      ∃ cfg, readString (effectiveLines lines) = Except.ok cfg) ∧
    parse_ini ["[A]", "[A]"] = ParseIniResult.dupSignal [("a", "A")] [("a", [])] "A" := by
  refine ⟨?_, ?_, ?_, by decide⟩
  · intro n
    cases hr : readString (effectiveLines lines) with
    | ok cfg => simp [parse_ini, hr]
    | error e =>
      cases e with
      | dupSection n2 =>
        simp only [parse_ini, hr]
        constructor
        · rintro ⟨smap, kmap, h⟩
          injection h with h1 h2 h3
          rw [h3]
        · intro h
          injection h with h1
          injection h1 with h2
          rw [h2]
          exact ⟨_, _, rfl⟩
      | dupOption s o => simp [parse_ini, hr]
      | missingHeader => simp [parse_ini, hr]
      | parsingError => simp [parse_ini, hr]
  · intro e
    cases hr : readString (effectiveLines lines) with
    | ok cfg => simp [parse_ini, hr]
    | error e2 =>
      cases e2 with
      | dupSection n2 =>
        simp only [parse_ini, hr]
        constructor
        · intro h
          simp at h
        · rintro ⟨he, hne⟩
          injection he with he2
          exact absurd he2.symm (hne n2)
      | dupOption s o =>
        constructor
        · intro h
          have hp : parse_ini lines = ParseIniResult.raised (ReadErr.dupOption s o) := by
            simp [parse_ini, hr]
          have heq : (ReadErr.dupOption s o) = e := by
            have h3 := hp.symm.trans h
            injection h3
          constructor
          · rw [← heq]
          · intro n hc
            rw [← heq] at hc
            cases hc
        · rintro ⟨he, -⟩
          have heq : (ReadErr.dupOption s o) = e := by injection he
          rw [← heq]
          simp [parse_ini, hr]
      | missingHeader =>
        constructor
        · intro h
          have hp : parse_ini lines = ParseIniResult.raised ReadErr.missingHeader := by
            simp [parse_ini, hr]
          have heq : ReadErr.missingHeader = e := by
            have h3 := hp.symm.trans h
            injection h3
          constructor
          · rw [← heq]
          · intro n hc
            rw [← heq] at hc
            cases hc
        · rintro ⟨he, -⟩
          have heq : ReadErr.missingHeader = e := by injection he
          rw [← heq]
          simp [parse_ini, hr]
      | parsingError =>
        constructor
        · intro h
          have hp : parse_ini lines = ParseIniResult.raised ReadErr.parsingError := by
            simp [parse_ini, hr]
          have heq : ReadErr.parsingError = e := by
            have h3 := hp.symm.trans h
            injection h3
          constructor
          · rw [← heq]
          · intro n hc
            rw [← heq] at hc
            cases hc
        · rintro ⟨he, -⟩
          have heq : ReadErr.parsingError = e := by injection he
          rw [← heq]
          simp [parse_ini, hr]
  · cases hr : readString (effectiveLines lines) with
    | ok cfg => simp [parse_ini, hr]
    | error e =>
      cases e with
      | dupSection n2 => simp [parse_ini, hr]
      | dupOption s o => simp [parse_ini, hr]
      | missingHeader => simp [parse_ini, hr]
      | parsingError => simp [parse_ini, hr]

/-- Witness for C2 at concrete inputs: the duplicate-header text signals
`DuplicateSection` and the malformed-line text raises uncaught. -/
theorem C2_error_classification_witness :
    readString (effectiveLines ["[A]", "[A]"]) =
      Except.error (ReadErr.dupSection "A") ∧
    (readString (effectiveLines ["x"]) = Except.error ReadErr.parsingError ∧
      ∀ n, ReadErr.parsingError ≠ ReadErr.dupSection n) :=
  ⟨((C2_error_classification_amended ["[A]", "[A]"]).1 "A").mp
      ⟨[("a", "A")], [("a", [])], by decide⟩,
    ((C2_error_classification_amended ["x"]).2.1 ReadErr.parsingError).mp (by decide)⟩

theorem pySpace_cases {c : Char} (h : isPySpace c = true) :
    c = ' ' ∨ c = '\t' ∨ c = '\n' ∨ c = '\r' ∨ c = '\x0b' ∨ c = '\x0c' := by
  unfold isPySpace at h
  simp only [Bool.or_eq_true, decide_eq_true_eq] at h
  tauto

theorem wordChar_not_pySpace {c : Char} (h : isWordChar c = true) :
    isPySpace c = false := by
  by_contra hsp
  rw [Bool.not_eq_false] at hsp
  rcases pySpace_cases hsp with h1 | h1 | h1 | h1 | h1 | h1 <;>
    (subst h1; exact absurd h (by decide))

theorem wordChar_ne {c x : Char} (h : isWordChar c = true)
    (hx : isWordChar x = false) : c ≠ x := by
  intro he
  subst he
  rw [h] at hx
  cases hx

theorem takeWhile_run {p : Char → Bool} {xs : List Char} {y : Char} (ys : List Char)
    (hx : ∀ x ∈ xs, p x = true) (hy : p y = false) :
    (xs ++ y :: ys).takeWhile p = xs ∧ (xs ++ y :: ys).dropWhile p = y :: ys := by
  induction xs with
  | nil => simp [List.takeWhile, List.dropWhile, hy]
  | cons x xs ih =>
    have hpx : p x = true := hx x (List.mem_cons_self x xs)
    have hrest := ih (fun z hz => hx z (List.mem_cons_of_mem x hz))
    simp only [List.cons_append, List.takeWhile_cons, List.dropWhile_cons, hpx,
      if_true]
    exact ⟨congrArg (x :: ·) hrest.1, hrest.2⟩

theorem headerLineOf_data (n : String) :
    (headerLineOf n).data = '[' :: (n.data ++ [']']) := by
  unfold headerLineOf
  rw [String.data_append, String.data_append]
  rfl

theorem kvLine_data (k v : String) :
    (kvLine k v).data = k.data ++ '=' :: v.data := by
  unfold kvLine
  rw [String.data_append, String.data_append]
  simp

theorem goodKey_parts {k : String} (h : goodKey k = true) :
    k.data ≠ [] ∧ ∀ c ∈ k.data, isWordChar c = true := by
  unfold goodKey at h
  simp only [Bool.and_eq_true, Bool.not_eq_true', List.isEmpty_eq_false,
    List.all_eq_true] at h
  exact ⟨by simpa using h.1, h.2⟩

theorem goodName_parts {n : String} (h : goodName n = true) :
    n.data ≠ [] ∧ (∀ c ∈ n.data, isWordChar c = true) ∧ n ≠ "DEFAULT" := by
  unfold goodName at h
  simp only [Bool.and_eq_true, Bool.not_eq_true', List.isEmpty_eq_false,
    bne_iff_ne, List.all_eq_true] at h
  exact ⟨by simpa using h.1.1, h.1.2, h.2⟩

theorem goodVal_parts {v : String} (h : goodVal v = true) :
    v.data.dropWhile isPySpace = v.data ∧
    v.data.reverse.dropWhile isPySpace = v.data.reverse := by
  unfold goodVal at h
  simp only [Bool.and_eq_true, decide_eq_true_eq] at h
  exact ⟨h.1.1, h.1.2⟩

theorem dropWhile_all_false {p : Char → Bool} :
    ∀ {l : List Char}, (∀ x ∈ l, p x = false) → l.dropWhile p = l
  | [], _ => rfl
  | c :: cs, h => by
    simp [List.dropWhile_cons, h c (List.mem_cons_self c cs)]

theorem takeWhile_nil_of_head {p : Char → Bool} {c : Char} (cs : List Char)
    (h : p c = false) : (c :: cs).takeWhile p = [] := by
  simp [List.takeWhile_cons, h]

theorem head_false_of_dropWhile_self {p : Char → Bool} {c : Char} {cs : List Char}
    (h : (c :: cs).dropWhile p = c :: cs) : p c = false := by
  by_contra hp
  rw [Bool.not_eq_false] at hp
  rw [List.dropWhile_cons, if_pos hp] at h
  have := length_dropWhile_le p cs
  rw [h] at this
  simp at this

theorem pstripChars_stable {cs : List Char}
    (h1 : cs.dropWhile isPySpace = cs)
    (h2 : cs.reverse.dropWhile isPySpace = cs.reverse) :
    pstripChars cs = cs := by
  unfold pstripChars
  rw [h1, h2, List.reverse_reverse]

theorem dropWhile_append_stable {p : Char → Bool} {A : List Char} (B : List Char)
    (hA : A.dropWhile p = A) (hne : A ≠ []) :
    (A ++ B).dropWhile p = A ++ B := by
  cases A with
  | nil => exact absurd rfl hne
  | cons a as =>
    have hpa := head_false_of_dropWhile_self hA
    simp [List.dropWhile_cons, hpa]

theorem headerLine_ne_empty (n : String) : headerLineOf n ≠ "" := by
  intro h
  have := congrArg String.data h
  rw [headerLineOf_data n] at this
  cases this

theorem headerLine_stable (n : String) : pstrip (headerLineOf n) = headerLineOf n := by
  have hdata := headerLineOf_data n
  unfold pstrip
  have h1 : (headerLineOf n).data.dropWhile isPySpace = (headerLineOf n).data := by
    rw [hdata, List.dropWhile_cons, if_neg (by decide)]
  have h2 : (headerLineOf n).data.reverse.dropWhile isPySpace =
      (headerLineOf n).data.reverse := by
    rw [hdata]
    have hr : ('[' :: (n.data ++ [']'])).reverse = ']' :: (n.data.reverse ++ ['[']) := by
      simp
    rw [hr, List.dropWhile_cons, if_neg (by decide)]
  rw [pstripChars_stable h1 h2]

theorem headerLine_indent (n : String) :
    ((headerLineOf n).data.takeWhile isPySpace).length = 0 := by
  rw [headerLineOf_data n]
  rw [takeWhile_nil_of_head _ (by decide)]
  rfl

theorem headerLine_not_comment (n : String) :
    strStarts (pstrip (headerLineOf n)) "#" = false ∧
    strStarts (pstrip (headerLineOf n)) ";" = false := by
  rw [headerLine_stable n]
  unfold strStarts
  rw [headerLineOf_data n]
  constructor <;> simp [List.isPrefixOf]

theorem sectHeaderName_headerLine {n : String} (hn : goodName n = true) :
    sectHeaderName (headerLineOf n) = some n := by
  obtain ⟨hne, hword, -⟩ := goodName_parts hn
  unfold sectHeaderName
  rw [headerLineOf_data n]
  have hrev : (n.data ++ [']']).reverse = ']' :: n.data.reverse := by simp
  have hdrop : List.dropWhile (fun x => decide (x ≠ ']')) (']' :: n.data.reverse) =
      ']' :: n.data.reverse := by
    rw [List.dropWhile_cons, if_neg (by simp)]
  have hrevne : n.data.reverse.isEmpty = false := by
    simp [List.isEmpty_eq_false, hne]
  simp only [hrev, hdrop, hrevne, if_pos, Bool.false_eq_true, if_false,
    List.reverse_reverse]

theorem pass1HeaderName_headerLine {n : String} (hn : goodName n = true) :
    pass1HeaderName (headerLineOf n) = some n := by
  obtain ⟨hne, hword, -⟩ := goodName_parts hn
  unfold pass1HeaderName
  rw [headerLineOf_data n]
  cases hd : n.data with
  | nil => exact absurd hd hne
  | cons d ds =>
    have hwords : ∀ c ∈ ds, (decide (c ≠ ']') : Bool) = true := by
      intro c hc
      have hcw : isWordChar c = true := by
        apply hword
        rw [hd]
        exact List.mem_cons_of_mem d hc
      have hne2 : c ≠ ']' := wordChar_ne hcw (show isWordChar ']' = false by decide)
      simp [hne2]
    have hrun := takeWhile_run ([] : List Char) hwords
      (show (decide ((']' : Char) ≠ ']') : Bool) = false by decide)
    have hds : ds ++ [']'] = ds ++ ']' :: [] := rfl
    simp only [List.cons_append, hds, hrun.2, hrun.1, if_pos]
    rw [← hd]

theorem kvLine_ne_empty (k v : String) : kvLine k v ≠ "" := by
  intro h
  have := congrArg String.data h
  rw [kvLine_data k v] at this
  cases hk : k.data with
  | nil => rw [hk] at this; cases this
  | cons c cs => rw [hk] at this; cases this

theorem kvLine_stable {k v : String} (hk : goodKey k = true) (hv : goodVal v = true) :
    pstrip (kvLine k v) = kvLine k v := by
  obtain ⟨hkne, hkw⟩ := goodKey_parts hk
  obtain ⟨hv1, hv2⟩ := goodVal_parts hv
  unfold pstrip
  have hdata := kvLine_data k v
  have h1 : (kvLine k v).data.dropWhile isPySpace = (kvLine k v).data := by
    rw [hdata]
    cases hkd : k.data with
    | nil => exact absurd hkd hkne
    | cons c cs =>
      have : isPySpace c = false :=
        wordChar_not_pySpace (hkw c (by rw [hkd]; exact List.mem_cons_self c cs))
      simp [List.dropWhile_cons, this]
  have h2 : (kvLine k v).data.reverse.dropWhile isPySpace =
      (kvLine k v).data.reverse := by
    rw [hdata]
    have hrev : (k.data ++ '=' :: v.data).reverse =
        v.data.reverse ++ ('=' :: k.data.reverse) := by
      simp
    rw [hrev]
    cases hvd : v.data with
    | nil =>
      simp only [hvd, List.reverse_nil, List.nil_append]
      rw [List.dropWhile_cons, if_neg (by decide)]
    | cons d ds =>
      refine dropWhile_append_stable _ ?_ ?_
      · rw [← hvd]; exact hv2
      · simp
  rw [pstripChars_stable h1 h2]

theorem kvLine_indent {k v : String} (hk : goodKey k = true) :
    ((kvLine k v).data.takeWhile isPySpace).length = 0 := by
  obtain ⟨hkne, hkw⟩ := goodKey_parts hk
  rw [kvLine_data k v]
  cases hkd : k.data with
  | nil => exact absurd hkd hkne
  | cons c cs =>
    have : isPySpace c = false :=
      wordChar_not_pySpace (hkw c (by rw [hkd]; exact List.mem_cons_self c cs))
    rw [List.cons_append, takeWhile_nil_of_head _ this]
    rfl

theorem kvLine_not_comment {k v : String} (hk : goodKey k = true)
    (hv : goodVal v = true) :
    strStarts (pstrip (kvLine k v)) "#" = false ∧
    strStarts (pstrip (kvLine k v)) ";" = false := by
  obtain ⟨hkne, hkw⟩ := goodKey_parts hk
  rw [kvLine_stable hk hv]
  unfold strStarts
  rw [kvLine_data k v]
  cases hkd : k.data with
  | nil => exact absurd hkd hkne
  | cons c cs =>
    have hcw : isWordChar c = true :=
      hkw c (by rw [hkd]; exact List.mem_cons_self c cs)
    have h1 : c ≠ '#' := wordChar_ne hcw (by decide)
    have h2 : c ≠ ';' := wordChar_ne hcw (by decide)
    constructor <;>
      simp [List.isPrefixOf, beq_eq_false_iff_ne, Ne.symm h1, Ne.symm h2]

theorem sectHeaderName_kvLine {k v : String} (hk : goodKey k = true) :
    sectHeaderName (kvLine k v) = none := by
  obtain ⟨hkne, hkw⟩ := goodKey_parts hk
  unfold sectHeaderName
  rw [kvLine_data k v]
  cases hkd : k.data with
  | nil => exact absurd hkd hkne
  | cons c cs =>
    have hcw : isWordChar c = true :=
      hkw c (by rw [hkd]; exact List.mem_cons_self c cs)
    simp only [List.cons_append]
    rw [if_neg (wordChar_ne hcw (by decide))]

theorem pass1HeaderName_kvLine {k v : String} (hk : goodKey k = true) :
    pass1HeaderName (kvLine k v) = none := by
  obtain ⟨hkne, hkw⟩ := goodKey_parts hk
  unfold pass1HeaderName
  rw [kvLine_data k v]
  cases hkd : k.data with
  | nil => exact absurd hkd hkne
  | cons c cs =>
    have hcw : isWordChar c = true :=
      hkw c (by rw [hkd]; exact List.mem_cons_self c cs)
    cases hrest : cs ++ '=' :: v.data with
    | nil =>
      rcases cs with - | ⟨c2, cs2⟩ <;> cases hrest
    | cons r0 rrest =>
      simp only [List.cons_append, hrest]
      rw [if_neg (wordChar_ne hcw (by decide))]

theorem splitOptLine_kvLine {k v : String} (hk : goodKey k = true)
    (hv : goodVal v = true) :
    splitOptLine (kvLine k v) = some (k, v) := by
  obtain ⟨hkne, hkw⟩ := goodKey_parts hk
  obtain ⟨hv1, hv2⟩ := goodVal_parts hv
  unfold splitOptLine
  rw [kvLine_data k v]
  have hkp : ∀ c ∈ k.data, ((fun c => c ≠ '=' && c ≠ ':') c : Bool) = true := by
    intro c hc
    have hcw := hkw c hc
    have h1 : c ≠ '=' := wordChar_ne hcw (show isWordChar '=' = false by decide)
    have h2 : c ≠ ':' := wordChar_ne hcw (show isWordChar ':' = false by decide)
    simp [h1, h2]
  have hrun := takeWhile_run v.data hkp
    (show (decide (('=' : Char) ≠ '=') && decide (('=' : Char) ≠ ':') : Bool) = false
      by decide)
  rw [hrun.2, hrun.1]
  have hprk : prstripChars k.data = k.data := by
    unfold prstripChars
    rw [dropWhile_all_false, List.reverse_reverse]
    intro c hc
    exact wordChar_not_pySpace (hkw c (by simpa using hc))
  have hpsv : pstripChars v.data = v.data := pstripChars_stable hv1 hv2
  simp only [hprk, hpsv]

theorem lookup_none_of_ne {β : Type} (d : List (String × β)) (k : String)
    (h : ∀ p ∈ d, p.1 ≠ k) : List.lookup k d = none := by
  induction d with
  | nil => rfl
  | cons p t ih =>
    obtain ⟨k1, v1⟩ := p
    have hp : k1 ≠ k := h (k1, v1) (List.mem_cons_self _ t)
    simp only [List.lookup, beq_eq_false_iff_ne.mpr (Ne.symm hp)]
    exact ih fun q hq => h q (List.mem_cons_of_mem _ hq)

theorem dictMapAt_append_last {β : Type} (pre : List (String × β)) (k : String)
    (v : β) (rest : List (String × β)) (f : β → β)
    (h : ∀ p ∈ pre, p.1 ≠ k) :
    dictMapAt (pre ++ (k, v) :: rest) k f = pre ++ (k, f v) :: rest := by
  induction pre with
  | nil => simp [dictMapAt]
  | cons p t ih =>
    obtain ⟨k1, v1⟩ := p
    have hp : k1 ≠ k := h (k1, v1) (List.mem_cons_self _ t)
    simp only [List.cons_append, dictMapAt, if_neg hp]
    exact congrArg (List.cons (k1, v1)) (ih fun q hq => h q (List.mem_cons_of_mem _ hq))

theorem readLine_header (st : RState) (n : String) :
    readLine st (headerLineOf n) = readStructured st (headerLineOf n) 0 := by
  have h1 := (headerLine_not_comment n).1
  have h2 := (headerLine_not_comment n).2
  rw [headerLine_stable n] at h1 h2
  have hic : (strStarts (headerLineOf n) "#" || strStarts (headerLineOf n) ";")
      = false := by rw [h1, h2]; rfl
  simp only [readLine, headerLine_stable n, hic, Bool.false_eq_true, if_false,
    if_neg (headerLine_ne_empty n), headerLine_indent n]
  cases st.cursect with
  | none => rfl
  | some sect =>
    cases st.optname with
    | none => rfl
    | some opt => simp

theorem readLine_kv (st : RState) {k v : String} (hk : goodKey k = true)
    (hv : goodVal v = true) :
    readLine st (kvLine k v) = readStructured st (kvLine k v) 0 := by
  have h1 := (kvLine_not_comment hk hv).1
  have h2 := (kvLine_not_comment hk hv).2
  rw [kvLine_stable hk hv] at h1 h2
  have hic : (strStarts (kvLine k v) "#" || strStarts (kvLine k v) ";")
      = false := by rw [h1, h2]; rfl
  simp only [readLine, kvLine_stable hk hv, hic, Bool.false_eq_true, if_false,
    if_neg (kvLine_ne_empty k v), kvLine_indent hk]
  cases st.cursect with
  | none => rfl
  | some sect =>
    cases st.optname with
    | none => rfl
    | some opt => simp

theorem readStructured_header_new (st : RState) {n : String}
    (hn : goodName n = true) (ind : Nat)
    (hnew : st.sections.lookup n = none) :
    readStructured st (headerLineOf n) ind = .ok
      { st with indentLevel := ind
                sections := st.sections ++ [(n, [])]
                cursect := some n
                optname := none
                addedSects := st.addedSects ++ [n] } := by
  obtain ⟨-, -, hnd⟩ := goodName_parts hn
  simp only [readStructured, sectHeaderName_headerLine hn, hnew,
    Option.isSome_none, Bool.false_eq_true, if_false, if_neg hnd]

theorem readStructured_kv (st : RState) {k v : String} (hk : goodKey k = true)
    (hv : goodVal v = true) (ind : Nat) {sect : String}
    (hcur : st.cursect = some sect)
    (hfresh : st.addedOpts.contains (sect, k) = false) :
    readStructured st (kvLine k v) ind = .ok (setOptVal
      { st with indentLevel := ind
                addedOpts := st.addedOpts ++ [(sect, k)]
                optname := some k }
      sect k [v]) := by
  have hkne : k ≠ "" := by
    intro h
    exact (goodKey_parts hk).1 (congrArg String.data h)
  simp only [readStructured, sectHeaderName_kvLine hk, hcur,
    splitOptLine_kvLine hk hv, if_neg hkne, hfresh, Bool.false_eq_true,
    if_false]

theorem contains_append {β : Type} [BEq β] (a b : List β) (x : β) :
    (a ++ b).contains x = (a.contains x || b.contains x) := by
  induction a with
  | nil => simp [List.contains]
  | cons y t ih =>
    simp only [List.cons_append, List.contains_cons, ih, Bool.or_assoc]

theorem readKVs_ok :
    ∀ (kvs : List (String × String)) (st : RState) (sect : String)
      (pre rest : List (String × List (String × List String)))
      (acc : List (String × List String)),
      st.cursect = some sect →
      st.sections = pre ++ (sect, acc) :: rest →
      (∀ p ∈ pre, p.1 ≠ sect) →
      (∀ q ∈ kvs, goodKey q.1 = true ∧ goodVal q.2 = true) →
      (∀ q ∈ kvs, acc.lookup q.1 = none) →
      (kvs.map Prod.fst).Nodup →
      (∀ q ∈ kvs, st.addedOpts.contains (sect, q.1) = false) →
      sect ≠ "DEFAULT" →
      ∃ optn iLvl, readLinesFrom st (kvLines kvs) = .ok
        { st with sections := pre ++ (sect, acc ++ rawVals kvs) :: rest
                  addedOpts := st.addedOpts ++ kvs.map (fun q => (sect, q.1))
                  optname := optn
                  indentLevel := iLvl }
  | [], st, sect, pre, rest, acc, hcur, hst, hpre, hgood, hacc, hnd, hfresh, hd => by
    refine ⟨st.optname, st.indentLevel, ?_⟩
    simp only [kvLines, List.map_nil, readLinesFrom, rawVals, List.append_nil]
    rw [← hst]
  | (k, v) :: qs, st, sect, pre, rest, acc, hcur, hst, hpre, hgood, hacc, hnd,
      hfresh, hd => by
    have hk : goodKey k = true := (hgood (k, v) (List.mem_cons_self _ qs)).1
    have hv : goodVal v = true := (hgood (k, v) (List.mem_cons_self _ qs)).2
    have hacck : acc.lookup k = none := hacc (k, v) (List.mem_cons_self _ qs)
    have hfk : st.addedOpts.contains (sect, k) = false :=
      hfresh (k, v) (List.mem_cons_self _ qs)
    have hkq : ∀ q ∈ qs, q.1 ≠ k := by
      intro q hq he
      have hnd2 := List.nodup_cons.mp hnd
      apply hnd2.1
      rw [← he]
      exact List.mem_map.mpr ⟨q, hq, rfl⟩
    have hstep : readLine st (kvLine k v) = .ok
        { st with sections := pre ++ (sect, acc ++ [(k, [v])]) :: rest
                  addedOpts := st.addedOpts ++ [(sect, k)]
                  optname := some k
                  indentLevel := 0 } := by
      rw [readLine_kv st hk hv, readStructured_kv st hk hv 0 hcur hfk]
      show Except.ok (setOptVal
        { st with indentLevel := 0
                  addedOpts := st.addedOpts ++ [(sect, k)]
                  optname := some k } sect k [v]) = _
      unfold setOptVal
      rw [if_neg hd]
      show Except.ok
        { st with indentLevel := 0
                  addedOpts := st.addedOpts ++ [(sect, k)]
                  optname := some k
                  sections := dictMapAt st.sections sect
                    (fun d => dictSet d k [v]) } = _
      rw [hst, dictMapAt_append_last pre sect acc rest _ hpre,
        dictSet_absent acc k [v] hacck]
    have hacc2 : ∀ q ∈ qs, (acc ++ [(k, [v])]).lookup q.1 = none := by
      intro q hq
      rw [lookup_append acc [(k, [v])] q.1, hacc q (List.mem_cons_of_mem _ hq)]
      simp [List.lookup, beq_eq_false_iff_ne.mpr (hkq q hq)]
    have hfresh2 : ∀ q ∈ qs,
        ((st.addedOpts ++ [(sect, k)]).contains (sect, q.1)) = false := by
      intro q hq
      rw [contains_append, hfresh q (List.mem_cons_of_mem _ hq)]
      simp [List.contains_cons, hkq q hq]
    obtain ⟨optn, iLvl, hrec⟩ := readKVs_ok qs
      { st with sections := pre ++ (sect, acc ++ [(k, [v])]) :: rest
                addedOpts := st.addedOpts ++ [(sect, k)]
                optname := some k
                indentLevel := 0 }
      sect pre rest (acc ++ [(k, [v])]) hcur rfl hpre
      (fun q hq => hgood q (List.mem_cons_of_mem _ hq))
      hacc2 (List.nodup_cons.mp hnd).2 hfresh2 hd
    refine ⟨optn, iLvl, ?_⟩
    simp only [kvLines, List.map_cons, readLinesFrom, hstep]
    simp only [kvLines] at hrec
    rw [hrec]
    simp [List.append_assoc, rawVals]

theorem ne_of_lookup_none {β : Type} {d : List (String × β)} {k : String}
    (h : List.lookup k d = none) : ∀ p ∈ d, p.1 ≠ k := by
  induction d with
  | nil => intro p hp; cases hp
  | cons p0 t ih =>
    obtain ⟨k1, v1⟩ := p0
    intro p hp
    by_cases he : k = k1
    · rw [List.lookup, beq_iff_eq.mpr he] at h
      cases h
    · rw [List.lookup, beq_eq_false_iff_ne.mpr he] at h
      rcases List.mem_cons.mp hp with h1 | h1
      · rw [h1]
        exact fun hc => he hc.symm
      · exact ih h p h1

theorem contains_false_of_all_ne {β : Type} [BEq β] :
    ∀ (l : List β) (x : β), (∀ r ∈ l, (x == r) = false) → l.contains x = false
  | [], _, _ => rfl
  | r :: t, x, h => by
    rw [List.contains_cons, h r (List.mem_cons_self _ t), Bool.false_or]
    exact contains_false_of_all_ne t x fun r2 hr2 => h r2 (List.mem_cons_of_mem _ hr2)

theorem readLinesFrom_append (a b : List String) (st : RState) :
    readLinesFrom st (a ++ b) =
      match readLinesFrom st a with
      | .error e => .error e
      | .ok st2 => readLinesFrom st2 b := by
  induction a generalizing st with
  | nil => simp [readLinesFrom]
  | cons l ls ih =>
    simp only [List.cons_append, readLinesFrom]
    cases readLine st l with
    | error e => rfl
    | ok st2 => exact ih st2

theorem readSpecFrom :
    ∀ (spec : List (String × List (String × String))) (st : RState),
      (∀ p ∈ spec, goodName p.1 = true ∧
        (∀ q ∈ p.2, goodKey q.1 = true ∧ goodVal q.2 = true) ∧
        (p.2.map Prod.fst).Nodup) →
      (spec.map Prod.fst).Nodup →
      (∀ p ∈ spec, st.sections.lookup p.1 = none) →
      (∀ p ∈ spec, ∀ q ∈ p.2, st.addedOpts.contains (p.1, q.1) = false) →
      ∃ cur optn iLvl, readLinesFrom st (renderSpec spec) = .ok
        { st with sections := st.sections ++ specLists spec
                  addedSects := st.addedSects ++ spec.map Prod.fst
                  addedOpts := st.addedOpts ++ optPairs spec
                  cursect := cur
                  optname := optn
                  indentLevel := iLvl }
  | [], st, hgood, hnd, hsec, hopt => by
    refine ⟨st.cursect, st.optname, st.indentLevel, ?_⟩
    simp only [renderSpec, List.map_nil, List.flatten_nil, readLinesFrom,
      specLists, optPairs, List.append_nil]
  | (n, kvs) :: ps, st, hgood, hnd, hsec, hopt => by
    obtain ⟨hn, hkv, hkndRaw⟩ := hgood (n, kvs) (List.mem_cons_self _ ps)
    have hnD : n ≠ "DEFAULT" := (goodName_parts hn).2.2
    have hlookn : st.sections.lookup n = none := hsec (n, kvs) (List.mem_cons_self _ ps)
    have hnps : ∀ p ∈ ps, p.1 ≠ n := by
      intro p hp he
      have hnd2 := List.nodup_cons.mp hnd
      apply hnd2.1
      rw [← he]
      exact List.mem_map.mpr ⟨p, hp, rfl⟩
    have hsplit : renderSpec ((n, kvs) :: ps) =
        (headerLineOf n :: kvLines kvs) ++ renderSpec ps := by
      simp [renderSpec, renderSection, kvLines]
    have hstep1 : readLine st (headerLineOf n) = .ok
        { st with indentLevel := 0
                  sections := st.sections ++ [(n, [])]
                  cursect := some n
                  optname := none
                  addedSects := st.addedSects ++ [n] } := by
      rw [readLine_header st n, readStructured_header_new st hn 0 hlookn]
    obtain ⟨optn1, iLvl1, hstep2⟩ := readKVs_ok kvs
      { st with indentLevel := 0
                sections := st.sections ++ [(n, [])]
                cursect := some n
                optname := none
                addedSects := st.addedSects ++ [n] }
      n st.sections [] [] rfl rfl (ne_of_lookup_none hlookn) hkv
      (by intro q hq; rfl) hkndRaw
      (fun q hq => hopt (n, kvs) (List.mem_cons_self _ ps) q hq) hnD
    obtain ⟨cur, optn, iLvl, hrec⟩ := readSpecFrom ps
      { st with indentLevel := iLvl1
                sections := st.sections ++ [(n, rawVals kvs)]
                cursect := some n
                optname := optn1
                addedSects := st.addedSects ++ [n]
                addedOpts := st.addedOpts ++ kvs.map (fun q => (n, q.1)) }
      (fun p hp => hgood p (List.mem_cons_of_mem _ hp))
      (List.nodup_cons.mp hnd).2
      (by
        intro p hp
        rw [lookup_append, hsec p (List.mem_cons_of_mem _ hp)]
        simp [List.lookup, beq_eq_false_iff_ne.mpr (hnps p hp)])
      (by
        intro p hp q hq
        rw [contains_append, hopt p (List.mem_cons_of_mem _ hp) q hq]
        rw [Bool.false_or]
        apply contains_false_of_all_ne
        intro r hr
        obtain ⟨q2, hq2, rfl⟩ := List.mem_map.mp hr
        have hne : (p.1, q.1) ≠ (n, q2.1) :=
          fun hc => hnps p hp (congrArg Prod.fst hc)
        exact beq_eq_false_iff_ne.mpr hne)
    refine ⟨cur, optn, iLvl, ?_⟩
    simp only [List.nil_append] at hstep2
    rw [hsplit, readLinesFrom_append]
    simp only [readLinesFrom, hstep1]
    rw [hstep2]
    show readLinesFrom
      { st with indentLevel := iLvl1
                sections := st.sections ++ [(n, rawVals kvs)]
                cursect := some n
                optname := optn1
                addedSects := st.addedSects ++ [n]
                addedOpts := st.addedOpts ++ kvs.map (fun q => (n, q.1)) }
      (renderSpec ps) = _
    rw [hrec]
    simp only [specLists, optPairs, List.map_cons, List.flatten_cons]
    simp [List.append_assoc]

theorem finalizeVal_single {v : String} (hv : goodVal v = true) :
    finalizeVal [v] = v := by
  have hv2 := (goodVal_parts hv).2
  have hint : String.intercalate "\n" [v] = v := rfl
  show prstrip (String.intercalate "\n" [v]) = v
  rw [hint]
  show (⟨prstripChars v.data⟩ : String) = v
  unfold prstripChars
  rw [hv2, List.reverse_reverse]

theorem specLists_finalize (spec : List (String × List (String × String)))
    (hgood : ∀ p ∈ spec, ∀ q ∈ p.2, goodVal q.2 = true) :
    (specLists spec).map
      (fun p => (p.1, p.2.map (fun q => (q.1, finalizeVal q.2)))) = spec := by
  unfold specLists
  rw [List.map_map]
  have hall : ∀ p ∈ spec,
      ((fun p => (p.1, p.2.map (fun q => (q.1, finalizeVal q.2)))) ∘
        (fun p => (p.1, rawVals p.2))) p = p := by
    intro p hp
    show (p.1, (rawVals p.2).map (fun q => (q.1, finalizeVal q.2))) = p
    have hin : (rawVals p.2).map (fun q => (q.1, finalizeVal q.2)) = p.2 := by
      unfold rawVals
      rw [List.map_map]
      have h2 : ∀ q ∈ p.2,
          ((fun q => (q.1, finalizeVal q.2)) ∘ (fun q => (q.1, [q.2]))) q = q := by
        intro q hq
        show (q.1, finalizeVal [q.2]) = q
        rw [finalizeVal_single (hgood p hp q hq)]
      rw [List.map_congr_left h2, List.map_id']
    rw [hin]
  rw [List.map_congr_left hall, List.map_id']

theorem readString_renderSpec (spec : List (String × List (String × String)))
    (hgood : ∀ p ∈ spec, goodName p.1 = true ∧
      (∀ q ∈ p.2, goodKey q.1 = true ∧ goodVal q.2 = true) ∧
      (p.2.map Prod.fst).Nodup)
    (hnd : (spec.map Prod.fst).Nodup) :
    readString (renderSpec spec) = .ok ⟨[], spec⟩ := by
  obtain ⟨cur, optn, iLvl, hread⟩ := readSpecFrom spec initRState hgood hnd
    (fun p hp => rfl) (fun p hp q hq => rfl)
  simp only [initRState, List.nil_append] at hread
  unfold readString initRState
  rw [hread]
  show (if false = true then Except.error ReadErr.parsingError
    else Except.ok
      { defaults := ([] : List (String × List String)).map
          (fun p => (p.1, finalizeVal p.2))
        sections := (specLists spec).map
          (fun p => (p.1, p.2.map (fun q => (q.1, finalizeVal q.2)))) })
    = Except.ok (⟨[], spec⟩ : IniConfig)
  rw [if_neg (by simp), List.map_nil,
    specLists_finalize spec (fun p hp q hq => (((hgood p hp).2.1) q hq).2)]

theorem lower_nodup_raw {β : Type} (l : List (String × β))
    (h : (l.map (fun p => strLower p.1)).Nodup) : (l.map Prod.fst).Nodup := by
  have hc : l.map (fun p => strLower p.1) = (l.map Prod.fst).map strLower := by
    rw [List.map_map]
    rfl
  rw [hc] at h
  exact List.Nodup.of_map strLower h

theorem pstrip_word {k : String} (hk : goodKey k = true) :
    pstrip (⟨k.data⟩ : String) = k := by
  obtain ⟨-, hkw⟩ := goodKey_parts hk
  have hns : ∀ c ∈ k.data, isPySpace c = false :=
    fun c hc => wordChar_not_pySpace (hkw c hc)
  show (⟨pstripChars k.data⟩ : String) = k
  rw [pstripChars_stable (dropWhile_all_false hns)
    (dropWhile_all_false fun c hc => hns c (List.mem_reverse.mp hc))]

theorem pass1Line_header (st : Pass1State) {n : String} (hn : goodName n = true) :
    pass1Line st (headerLineOf n) =
      { smap := dictSet st.smap (strLower n) n
        kmap := dictSet st.kmap (strLower n) []
        current := some n } := by
  simp only [pass1Line, pass1HeaderName_headerLine hn]

theorem pass1Line_kv (st : Pass1State) {k v : String} (hk : goodKey k = true)
    {cur : String} (hcur : st.current = some cur) :
    pass1Line st (kvLine k v) =
      { st with kmap := dictMapAt st.kmap (strLower cur) fun sub => dictSet sub (strLower k) k } := by
  obtain ⟨hkne, hkw⟩ := goodKey_parts hk
  have hcont : (kvLine k v).data.contains '=' = true := by
    rw [kvLine_data, contains_append]
    simp [List.contains_cons]
  have hkp : ∀ c ∈ k.data, ((fun c => decide (c ≠ '=')) c) = true := by
    intro c hc
    have h1 : c ≠ '=' :=
      wordChar_ne (hkw c hc) (show isWordChar '=' = false by decide)
    simp [h1]
  have htw : (kvLine k v).data.takeWhile (fun c => decide (c ≠ '=')) = k.data := by
    rw [kvLine_data]
    exact (takeWhile_run v.data hkp
      (show (decide (('=' : Char) ≠ '=') : Bool) = false by decide)).1
  simp only [pass1Line, pass1HeaderName_kvLine hk, hcur, hcont, if_true, htw,
    pstrip_word hk]

theorem pass1_fold_kvs :
    ∀ (kvs : List (String × String)) (st : Pass1State) (n : String)
      (pre : List (String × List (String × String)))
      (sub : List (String × String)),
      st.current = some n →
      st.kmap = pre ++ [(strLower n, sub)] →
      (∀ p ∈ pre, p.1 ≠ strLower n) →
      (∀ q ∈ kvs, goodKey q.1 = true) →
      (∀ q ∈ kvs, sub.lookup (strLower q.1) = none) →
      (kvs.map (fun q => strLower q.1)).Nodup →
      (kvLines kvs).foldl pass1Line st =
        { st with kmap := pre ++ [(strLower n, sub ++ kmapOf kvs)] }
  | [], st, n, pre, sub, hcur, hkm, hpre, hgood, hsub, hnd => by
    simp only [kvLines, List.map_nil, List.foldl_nil, kmapOf, List.append_nil]
    rw [← hkm]
  | (k, v) :: qs, st, n, pre, sub, hcur, hkm, hpre, hgood, hsub, hnd => by
    have hk : goodKey k = true := hgood (k, v) (List.mem_cons_self _ qs)
    have hkq : ∀ q ∈ qs, strLower q.1 ≠ strLower k := by
      intro q hq he
      have hnd2 := List.nodup_cons.mp hnd
      apply hnd2.1
      show strLower k ∈ List.map (fun q => strLower q.1) qs
      rw [← he]
      exact List.mem_map.mpr ⟨q, hq, rfl⟩
    have hstep : pass1Line st (kvLine k v) =
        { st with kmap := pre ++ [(strLower n, sub ++ [(strLower k, k)])] } := by
      rw [pass1Line_kv st hk hcur]
      have : dictMapAt st.kmap (strLower n)
          (fun sub2 => dictSet sub2 (strLower k) k) =
          pre ++ [(strLower n, sub ++ [(strLower k, k)])] := by
        rw [hkm, dictMapAt_append_last pre (strLower n) sub [] _ hpre,
          dictSet_absent sub (strLower k) k
            (hsub (k, v) (List.mem_cons_self _ qs))]
      rw [this]
    have hsub2 : ∀ q ∈ qs,
        (sub ++ [(strLower k, k)]).lookup (strLower q.1) = none := by
      intro q hq
      rw [lookup_append, hsub q (List.mem_cons_of_mem _ hq)]
      simp [List.lookup, beq_eq_false_iff_ne.mpr (hkq q hq)]
    have hrec := pass1_fold_kvs qs
      { st with kmap := pre ++ [(strLower n, sub ++ [(strLower k, k)])] }
      n pre (sub ++ [(strLower k, k)]) hcur rfl hpre
      (fun q hq => hgood q (List.mem_cons_of_mem _ hq)) hsub2
      (List.nodup_cons.mp hnd).2
    simp only [kvLines, List.map_cons, List.foldl_cons, hstep]
    simp only [kvLines] at hrec
    rw [hrec]
    simp [kmapOf, List.append_assoc]

theorem pass1_fold_spec :
    ∀ (spec : List (String × List (String × String))) (st : Pass1State),
      (∀ p ∈ spec, goodName p.1 = true ∧ (∀ q ∈ p.2, goodKey q.1 = true) ∧
        (p.2.map (fun q => strLower q.1)).Nodup) →
      (spec.map (fun p => strLower p.1)).Nodup →
      (∀ p ∈ spec, st.smap.lookup (strLower p.1) = none ∧
        st.kmap.lookup (strLower p.1) = none) →
      ∃ cur, (renderSpec spec).foldl pass1Line st =
        { smap := st.smap ++ smapOf spec
          kmap := st.kmap ++ kmapOf2 spec
          current := cur }
  | [], st, hgood, hnd, hfresh => by
    refine ⟨st.current, ?_⟩
    simp only [renderSpec, List.map_nil, List.flatten_nil, List.foldl_nil,
      smapOf, kmapOf2, List.append_nil]
  | (n, kvs) :: ps, st, hgood, hnd, hfresh => by
    obtain ⟨hn, hkv, hknd⟩ := hgood (n, kvs) (List.mem_cons_self _ ps)
    have hfr := hfresh (n, kvs) (List.mem_cons_self _ ps)
    have hnps : ∀ p ∈ ps, strLower p.1 ≠ strLower n := by
      intro p hp he
      have hnd2 := List.nodup_cons.mp hnd
      apply hnd2.1
      show strLower n ∈ List.map (fun p => strLower p.1) ps
      rw [← he]
      exact List.mem_map.mpr ⟨p, hp, rfl⟩
    have hsplit : renderSpec ((n, kvs) :: ps) =
        (headerLineOf n :: kvLines kvs) ++ renderSpec ps := by
      simp [renderSpec, renderSection, kvLines]
    have hstep1 : pass1Line st (headerLineOf n) =
        { smap := st.smap ++ [(strLower n, n)]
          kmap := st.kmap ++ [(strLower n, ([] : List (String × String)))]
          current := some n } := by
      rw [pass1Line_header st hn, dictSet_absent st.smap (strLower n) n hfr.1,
        dictSet_absent st.kmap (strLower n) [] hfr.2]
    have hstep2 := pass1_fold_kvs kvs
      { smap := st.smap ++ [(strLower n, n)]
        kmap := st.kmap ++ [(strLower n, ([] : List (String × String)))]
        current := some n }
      n st.kmap [] rfl rfl (ne_of_lookup_none hfr.2)
      (fun q hq => (hkv q hq)) (fun q hq => rfl) hknd
    obtain ⟨cur, hrec⟩ := pass1_fold_spec ps
      { smap := st.smap ++ [(strLower n, n)]
        kmap := st.kmap ++ [(strLower n, kmapOf kvs)]
        current := some n }
      (fun p hp => hgood p (List.mem_cons_of_mem _ hp))
      (List.nodup_cons.mp hnd).2
      (by
        intro p hp
        constructor
        · rw [lookup_append, (hfresh p (List.mem_cons_of_mem _ hp)).1]
          simp [List.lookup, beq_eq_false_iff_ne.mpr (hnps p hp)]
        · rw [lookup_append, (hfresh p (List.mem_cons_of_mem _ hp)).2]
          simp [List.lookup, beq_eq_false_iff_ne.mpr (hnps p hp)])
    refine ⟨cur, ?_⟩
    rw [hsplit, List.foldl_append]
    simp only [List.foldl_cons, hstep1]
    simp only [List.nil_append] at hstep2
    rw [hstep2, hrec]
    simp [smapOf, kmapOf2, List.append_assoc]

theorem pass1Maps_renderSpec (spec : List (String × List (String × String)))
    (hgood : ∀ p ∈ spec, goodName p.1 = true ∧ (∀ q ∈ p.2, goodKey q.1 = true) ∧
      (p.2.map (fun q => strLower q.1)).Nodup)
    (hnd : (spec.map (fun p => strLower p.1)).Nodup) :
    pass1Maps (renderSpec spec) = (smapOf spec, kmapOf2 spec) := by
  obtain ⟨cur, hfold⟩ := pass1_fold_spec spec
    { smap := [], kmap := [], current := none } hgood hnd
    (fun p hp => ⟨rfl, rfl⟩)
  unfold pass1Maps
  rw [hfold]
  rfl

theorem globalGuard_renderSpec (n : String) (kvs : List (String × String))
    (ps : List (String × List (String × String))) :
    globalGuard (renderSpec ((n, kvs) :: ps)) = true := by
  have hsplit : renderSpec ((n, kvs) :: ps) =
      headerLineOf n :: (kvLines kvs ++ renderSpec ps) := by
    simp [renderSpec, renderSection, kvLines]
  have hall : (headerLineOf n).data.all isPySpace = false := by
    rw [headerLineOf_data, List.all_cons,
      (show isPySpace '[' = false by decide), Bool.false_and]
  have hdw : (headerLineOf n).data.dropWhile isPySpace =
      '[' :: (n.data ++ [']']) := by
    rw [headerLineOf_data, List.dropWhile_cons, if_neg (by decide)]
  unfold globalGuard
  rw [hsplit, List.dropWhile_cons]
  simp only [hall, Bool.false_eq_true, if_false, hdw]
  simp [contains_append, List.contains_cons]

theorem parse_ini_renderSpec (spec : List (String × List (String × String)))
    (hgood : ∀ p ∈ spec, goodName p.1 = true ∧
      (∀ q ∈ p.2, goodKey q.1 = true ∧ goodVal q.2 = true) ∧
      (p.2.map (fun q => strLower q.1)).Nodup)
    (hnd : (spec.map (fun p => strLower p.1)).Nodup)
    (hne : spec ≠ []) :
    parse_ini (renderSpec spec) =
      .ok ⟨[], spec⟩ (smapOf spec) (kmapOf2 spec) := by
  have hgg : globalGuard (renderSpec spec) = true := by
    cases spec with
    | nil => exact absurd rfl hne
    | cons p ps => exact globalGuard_renderSpec p.1 p.2 ps
  have hgoodRaw : ∀ p ∈ spec, goodName p.1 = true ∧
      (∀ q ∈ p.2, goodKey q.1 = true ∧ goodVal q.2 = true) ∧
      (p.2.map Prod.fst).Nodup := by
    intro p hp
    obtain ⟨h1, h2, h3⟩ := hgood p hp
    exact ⟨h1, h2, lower_nodup_raw p.2 h3⟩
  have hndRaw : (spec.map Prod.fst).Nodup := lower_nodup_raw spec hnd
  have hp1 : pass1Maps (renderSpec spec) = (smapOf spec, kmapOf2 spec) :=
    pass1Maps_renderSpec spec
      (fun p hp => ⟨(hgood p hp).1, fun q hq => ((hgood p hp).2.1 q hq).1,
        (hgood p hp).2.2⟩) hnd
  have hrs : readString (renderSpec spec) = .ok ⟨[], spec⟩ :=
    readString_renderSpec spec hgoodRaw hndRaw
  unfold parse_ini effectiveLines
  rw [hp1, hgg]
  simp only [eq_self_iff_true, if_true, hrs]

theorem lookup_map_keyed {α β : Type} (f : α → String) (G : α → β) :
    ∀ (l : List α), (l.map f).Nodup → ∀ a ∈ l,
      (l.map fun x => (f x, G x)).lookup (f a) = some (G a)
  | [], _, a, ha => absurd ha (List.not_mem_nil a)
  | x :: xs, hnd, a, ha => by
    rcases List.mem_cons.mp ha with h1 | h1
    · subst h1
      simp [List.lookup]
    · have hne : f a ≠ f x := by
        intro he
        have hnd2 := List.nodup_cons.mp hnd
        apply hnd2.1
        show f x ∈ List.map f xs
        rw [← he]
        exact List.mem_map.mpr ⟨a, h1, rfl⟩
      simp only [List.map_cons, List.lookup, beq_eq_false_iff_ne.mpr hne]
      exact lookup_map_keyed f G xs (List.nodup_cons.mp hnd).2 a h1

theorem map_pair_eta {α β : Type} (l : List (α × β)) :
    (l.map fun x => (x.1, x.2)) = l := by
  induction l with
  | nil => rfl
  | cons p t ih => rw [List.map_cons, ih]

theorem lookup_spec_self (spec : List (String × List (String × String)))
    (hnd : (spec.map Prod.fst).Nodup) {n : String}
    {kvs : List (String × String)} (hmem : (n, kvs) ∈ spec) :
    spec.lookup n = some kvs := by
  have h := lookup_map_keyed Prod.fst Prod.snd spec hnd (n, kvs) hmem
  rw [map_pair_eta] at h
  exact h

theorem lookup_kmapOf_none (kvs : List (String × String)) (k : String)
    (h : strLower k ∉ kvs.map (fun q => strLower q.1)) :
    (kmapOf kvs).lookup k = none := by
  apply lookup_none_of_ne
  intro p hp he
  obtain ⟨q, hq, rfl⟩ := List.mem_map.mp hp
  apply h
  show strLower k ∈ _
  rw [← he]
  show strLower (strLower q.1) ∈ _
  rw [strLower_idem]
  exact List.mem_map.mpr ⟨q, hq, rfl⟩

theorem origKey_kmapOf :
    ∀ (kvs : List (String × String)),
      ((kvs.map (fun q => strLower q.1)).Nodup) →
      ∀ k ∈ kvs.map Prod.fst, ((kmapOf kvs).lookup k).getD k = k
  | [], _, k, hk => absurd hk (List.not_mem_nil k)
  | (k1, v1) :: qs, hnd, k, hk => by
    have hnd2 := List.nodup_cons.mp hnd
    by_cases hq : k = strLower k1
    · have hlk : (kmapOf ((k1, v1) :: qs)).lookup k = some k1 := by
        simp [kmapOf, List.lookup, beq_iff_eq.mpr hq]
      rw [hlk]
      rcases List.mem_cons.mp hk with h1 | h1
      · exact h1.symm
      · exfalso
        apply hnd2.1
        show strLower k1 ∈ List.map (fun q => strLower q.1) qs
        obtain ⟨q, hqq, hfst⟩ := List.mem_map.mp h1
        have : strLower k = strLower k1 := by
          rw [hq, strLower_idem]
        rw [← this, ← hfst]
        exact List.mem_map.mpr ⟨q, hqq, rfl⟩
    · have hskip : (kmapOf ((k1, v1) :: qs)).lookup k =
          (kmapOf qs).lookup k := by
        simp [kmapOf, List.lookup, beq_eq_false_iff_ne.mpr hq]
      rw [hskip]
      rcases List.mem_cons.mp hk with h1 | h1
      · have hnone : (kmapOf qs).lookup k = none := by
          apply lookup_kmapOf_none
          rw [h1]
          exact hnd2.1
        rw [hnone]
        rfl
      · exact origKey_kmapOf qs hnd2.2 k h1

theorem lookup_self {β : Type} (l : List (String × β))
    (hnd : (l.map Prod.fst).Nodup) {a : String × β} (ha : a ∈ l) :
    l.lookup a.1 = some a.2 := by
  have h := lookup_map_keyed Prod.fst Prod.snd l hnd a ha
  rw [map_pair_eta] at h
  exact h

theorem items_map_eq (kvs : List (String × String)) (F : String → Option String)
    (hF : ∀ q ∈ kvs, F q.1 = some q.2) :
    (dictKeys kvs).map (fun k => (k, (F k).getD "")) = kvs := by
  induction kvs with
  | nil => rfl
  | cons q t ih =>
    show (q.1, (F q.1).getD "") :: (dictKeys t).map (fun k => (k, (F k).getD "")) =
      q :: t
    rw [hF q (List.mem_cons_self _ t),
      ih fun r hr => hF r (List.mem_cons_of_mem _ hr)]
    rfl

theorem iniItems_spec (spec : List (String × List (String × String)))
    (hndRaw : (spec.map Prod.fst).Nodup) {n : String}
    {kvs : List (String × String)} (hmem : (n, kvs) ∈ spec)
    (hknd : (kvs.map Prod.fst).Nodup) :
    iniItems ⟨[], spec⟩ n = kvs := by
  have hsd : sectDict ⟨[], spec⟩ n = kvs := by
    show (spec.lookup n).getD [] = kvs
    rw [lookup_spec_self spec hndRaw hmem]
    rfl
  have hF : ∀ q ∈ kvs, iniGet ⟨[], spec⟩ n q.1 = some q.2 := by
    intro q hq
    unfold iniGet
    rw [hsd, lookup_self kvs hknd hq]
  unfold iniItems iniOptions
  rw [hsd]
  rw [show (dictKeys ((⟨[], spec⟩ : IniConfig).defaults)).filter
    (fun k => (kvs.lookup k).isNone) = [] from rfl]
  rw [List.append_nil]
  exact items_map_eq kvs _ hF

theorem renderOf_spec (spec : List (String × List (String × String)))
    (hnd : (spec.map (fun p => strLower p.1)).Nodup)
    (hgood : ∀ p ∈ spec, (∀ q ∈ p.2, goodKey q.1 = true) ∧
      (p.2.map (fun q => strLower q.1)).Nodup)
    (p : String × List (String × String)) (hp : p ∈ spec) :
    ("[" ++ (((smapOf spec).lookup (strLower p.1)).getD p.1) ++ "]") ::
      ((iniItems ⟨[], spec⟩ p.1).map
        (fun q => kvLine (origKey (kmapOf2 spec) (strLower p.1) q.1) q.2)) =
    renderSection p := by
  have hs : (smapOf spec).lookup (strLower p.1) = some p.1 :=
    lookup_map_keyed (fun p => strLower p.1) Prod.fst spec hnd p hp
  have hk : (kmapOf2 spec).lookup (strLower p.1) = some (kmapOf p.2) :=
    lookup_map_keyed (fun p => strLower p.1) (fun p => kmapOf p.2) spec hnd p hp
  have hndRaw : (spec.map Prod.fst).Nodup := lower_nodup_raw spec hnd
  have hkndLow := (hgood p hp).2
  have hknd : (p.2.map Prod.fst).Nodup := lower_nodup_raw p.2 hkndLow
  have hitems : iniItems ⟨[], spec⟩ p.1 = p.2 :=
    iniItems_spec spec hndRaw hp hknd
  have hok : ∀ q ∈ p.2,
      kvLine (origKey (kmapOf2 spec) (strLower p.1) q.1) q.2 =
        kvLine q.1 q.2 := by
    intro q hq
    have hkey : origKey (kmapOf2 spec) (strLower p.1) q.1 = q.1 := by
      unfold origKey
      rw [hk]
      show ((kmapOf p.2).lookup q.1).getD q.1 = q.1
      exact origKey_kmapOf p.2 hkndLow q.1 (List.mem_map.mpr ⟨q, hq, rfl⟩)
    rw [hkey]
  rw [hs, hitems, List.map_congr_left hok]
  rfl

theorem removeBlanks_saveSections :
    ∀ (ns : List String) (cfg : IniConfig) (smap : List (String × String))
      (kmap : List (String × List (String × String))) (w : Bool),
      removeBlanks (saveSections cfg smap kmap ns w) =
        ((ns.filter (fun s => s ≠ "GLOBAL")).map
          (fun s => ("[" ++ ((smap.lookup (strLower s)).getD s) ++ "]") ::
            (iniItems cfg s).map
              (fun q => kvLine (origKey kmap (strLower s) q.1) q.2))).flatten
  | [], cfg, smap, kmap, w => rfl
  | s :: ns, cfg, smap, kmap, w => by
    simp only [saveSections]
    by_cases hg : s = "GLOBAL"
    · rw [if_pos hg, removeBlanks_saveSections ns cfg smap kmap w,
        List.filter_cons]
      simp [hg]
    · rw [if_neg hg]
      unfold removeBlanks
      rw [List.filter_append, List.filter_append]
      have hA : ((if w then [""] else []).filter (fun l => l ≠ "")) = [] := by
        cases w <;> rfl
      have hhdr : ((("[" ++ ((smap.lookup (strLower s)).getD s) ++ "]") ::
          (iniItems cfg s).map
            (fun q => kvLine (origKey kmap (strLower s) q.1) q.2)).filter
          (fun l => l ≠ "")) =
          ("[" ++ ((smap.lookup (strLower s)).getD s) ++ "]") ::
          (iniItems cfg s).map
            (fun q => kvLine (origKey kmap (strLower s) q.1) q.2) := by
        apply List.filter_eq_self.mpr
        intro line hline
        rcases List.mem_cons.mp hline with h1 | h1
        · rw [h1]
          exact decide_eq_true (headerLine_ne_empty _)
        · obtain ⟨q, hq, rfl⟩ := List.mem_map.mp h1
          exact decide_eq_true (kvLine_ne_empty _ _)
      rw [hA, hhdr]
      have hrec := removeBlanks_saveSections ns cfg smap kmap true
      unfold removeBlanks at hrec
      rw [hrec, List.filter_cons]
      simp only [hg, decide_not, decide_eq_true_eq]
      rw [if_pos (by simp [hg])]
      simp [List.flatten_cons]

theorem save_noGlobal (spec : List (String × List (String × String)))
    (hnd : (spec.map (fun p => strLower p.1)).Nodup)
    (hgood : ∀ p ∈ spec, (∀ q ∈ p.2, goodKey q.1 = true) ∧
      (p.2.map (fun q => strLower q.1)).Nodup)
    (hng : "GLOBAL" ∉ spec.map Prod.fst) :
    removeBlanks (save_ini_lines ⟨[], spec⟩ (smapOf spec) (kmapOf2 spec)) =
      renderSpec spec := by
  have hhs : hasSection ⟨[], spec⟩ "GLOBAL" = false := by
    unfold hasSection
    show (spec.lookup "GLOBAL").isSome = false
    rw [lookup_none_of_ne spec "GLOBAL" (by
      intro p hp he
      exact hng (List.mem_map.mpr ⟨p, hp, he⟩))]
    rfl
  unfold save_ini_lines
  rw [hhs]
  simp only [Bool.false_eq_true, if_false]
  show removeBlanks (saveSections ⟨[], spec⟩ (smapOf spec) (kmapOf2 spec)
    (dictKeys spec) false) = renderSpec spec
  rw [removeBlanks_saveSections]
  have hfilt : (dictKeys spec).filter (fun s => s ≠ "GLOBAL") = dictKeys spec := by
    apply List.filter_eq_self.mpr
    intro s hs
    apply decide_eq_true
    intro he
    exact hng (he ▸ hs)
  rw [hfilt]
  show (((spec.map Prod.fst).map _).flatten) = renderSpec spec
  rw [List.map_map]
  unfold renderSpec
  congr 1
  apply List.map_congr_left
  intro p hp
  exact renderOf_spec spec hnd hgood p hp

/-- C1, counterexample: the text `[DEFAULT]` / `x=1` parses into the
`DEFAULT` option dict, `sections()` is empty, and serialization writes
nothing at all - the key `x` is lost entirely, which is not explained by
blank-line insertion or implicit-section repositioning. -/
theorem C1_round_trip_counterexample :
    roundTripSave ["[DEFAULT]", "x=1"] = some [] := by decide

/-- C1 (amended): on the canonical sectioned class - nonempty specs whose
section names are nonempty word-character strings other than `DEFAULT` and
`GLOBAL` with distinct lowercasings, whose keys are nonempty word-character
strings with per-section distinct lowercasings, and whose values are
single-line and strip-stable - parse followed by immediate serialization
reproduces the rendered text exactly, modulo the inserted blank separator
lines. -/
theorem C1_round_trip_amended (spec : List (String × List (String × String)))
    (hgood : ∀ p ∈ spec, goodName p.1 = true ∧
      (∀ q ∈ p.2, goodKey q.1 = true ∧ goodVal q.2 = true) ∧
      (p.2.map (fun q => strLower q.1)).Nodup)
    (hnd : (spec.map (fun p => strLower p.1)).Nodup)
    (hne : spec ≠ []) (hng : "GLOBAL" ∉ spec.map Prod.fst) :
    ∃ out, roundTripSave (renderSpec spec) = some out ∧
      removeBlanks out = renderSpec spec := by
  refine ⟨save_ini_lines ⟨[], spec⟩ (smapOf spec) (kmapOf2 spec), ?_, ?_⟩
  · unfold roundTripSave
    rw [parse_ini_renderSpec spec hgood hnd hne]
  · exact save_noGlobal spec hnd
      (fun p hp => ⟨fun q hq => ((hgood p hp).2.1 q hq).1, (hgood p hp).2.2⟩) hng

/-- C1 witness: the amended round trip evaluated on a concrete two-section
spec. -/
theorem C1_round_trip_witness :
    ("GLOBAL" ∉ ([("Alpha", [("Key", "1")]),
      ("beta", [("k", "x y")])].map Prod.fst)) ∧
    ∃ out, roundTripSave (renderSpec [("Alpha", [("Key", "1")]),
        ("beta", [("k", "x y")])]) = some out ∧
      removeBlanks out = renderSpec [("Alpha", [("Key", "1")]),
        ("beta", [("k", "x y")])] :=
  ⟨by decide, C1_round_trip_amended _ (by decide) (by decide) (by decide)
    (by decide)⟩

theorem save_withGlobal (A B : List (String × List (String × String)))
    (g : List (String × String))
    (hnd : ((A ++ ("GLOBAL", g) :: B).map (fun p => strLower p.1)).Nodup)
    (hgood : ∀ p ∈ A ++ ("GLOBAL", g) :: B, (∀ q ∈ p.2, goodKey q.1 = true) ∧
      (p.2.map (fun q => strLower q.1)).Nodup) :
    removeBlanks (save_ini_lines ⟨[], A ++ ("GLOBAL", g) :: B⟩
      (smapOf (A ++ ("GLOBAL", g) :: B)) (kmapOf2 (A ++ ("GLOBAL", g) :: B))) =
      kvLines g ++ renderSpec (A ++ B) := by
  have hmem : ("GLOBAL", g) ∈ A ++ ("GLOBAL", g) :: B :=
    List.mem_append.mpr (Or.inr (List.mem_cons_self _ B))
  have hndRaw : ((A ++ ("GLOBAL", g) :: B).map Prod.fst).Nodup :=
    lower_nodup_raw _ hnd
  have hgG := hgood ("GLOBAL", g) hmem
  have hgndLow : (g.map (fun q => strLower q.1)).Nodup := hgG.2
  have hgnd : (g.map Prod.fst).Nodup := lower_nodup_raw g hgndLow
  have hmid : ("global" :: ((A ++ B).map (fun p => strLower p.1))).Nodup := by
    have h0 := hnd
    simp only [List.map_append, List.map_cons] at h0 ⊢
    exact List.nodup_middle.mp h0
  have hABlow : (((A ++ B).map (fun p => strLower p.1))).Nodup :=
    (List.nodup_cons.mp hmid).2
  have hABne : ∀ p ∈ A ++ B, p.1 ≠ "GLOBAL" := by
    intro p hp he
    apply (List.nodup_cons.mp hmid).1
    have : strLower p.1 = "global" := by rw [he]; rfl
    rw [← this]
    exact List.mem_map.mpr ⟨p, hp, rfl⟩
  have hhs : hasSection ⟨[], A ++ ("GLOBAL", g) :: B⟩ "GLOBAL" = true := by
    unfold hasSection
    show ((A ++ ("GLOBAL", g) :: B).lookup "GLOBAL").isSome = true
    rw [lookup_spec_self _ hndRaw hmem]
    rfl
  have hitems : iniItems ⟨[], A ++ ("GLOBAL", g) :: B⟩ "GLOBAL" = g :=
    iniItems_spec _ hndRaw hmem hgnd
  have hk2 : (kmapOf2 (A ++ ("GLOBAL", g) :: B)).lookup "global" =
      some (kmapOf g) := by
    rw [show ("global" : String) = strLower "GLOBAL" from rfl]
    exact lookup_map_keyed (fun p => strLower p.1) (fun p => kmapOf p.2) _ hnd
      ("GLOBAL", g) hmem
  have hok : ∀ q ∈ g,
      kvLine (origKey (kmapOf2 (A ++ ("GLOBAL", g) :: B)) "global" q.1) q.2 =
        kvLine q.1 q.2 := by
    intro q hq
    have hkey : origKey (kmapOf2 (A ++ ("GLOBAL", g) :: B)) "global" q.1 = q.1 := by
      unfold origKey
      rw [hk2]
      show ((kmapOf g).lookup q.1).getD q.1 = q.1
      exact origKey_kmapOf g hgndLow q.1 (List.mem_map.mpr ⟨q, hq, rfl⟩)
    rw [hkey]
  unfold save_ini_lines
  rw [hhs]
  simp only [if_true, eq_self_iff_true]
  unfold removeBlanks
  rw [List.filter_append]
  have hfX : ((iniItems ⟨[], A ++ ("GLOBAL", g) :: B⟩ "GLOBAL").map
      (fun p => kvLine (origKey (kmapOf2 (A ++ ("GLOBAL", g) :: B)) "global" p.1)
        p.2)).filter (fun l => l ≠ "") = kvLines g := by
    rw [hitems, List.map_congr_left hok]
    apply List.filter_eq_self.mpr
    intro line hline
    obtain ⟨q, hq, rfl⟩ := List.mem_map.mp hline
    exact decide_eq_true (kvLine_ne_empty _ _)
  rw [hfX]
  have hrecY := removeBlanks_saveSections (dictKeys (A ++ ("GLOBAL", g) :: B))
    ⟨[], A ++ ("GLOBAL", g) :: B⟩ (smapOf (A ++ ("GLOBAL", g) :: B))
    (kmapOf2 (A ++ ("GLOBAL", g) :: B)) true
  unfold removeBlanks at hrecY
  show (kvLines g) ++ (List.filter (fun l => decide (l ≠ "")) (saveSections _ _ _ _ _)) = _
  rw [hrecY]
  have hfilt : ((A ++ ("GLOBAL", g) :: B).map Prod.fst).filter
      (fun s => s ≠ "GLOBAL") = (A ++ B).map Prod.fst := by
    rw [List.map_append, List.map_cons, List.filter_append, List.filter_cons]
    have h1 : (A.map Prod.fst).filter (fun s => decide (s ≠ "GLOBAL")) =
        A.map Prod.fst := by
      apply List.filter_eq_self.mpr
      intro s hs
      obtain ⟨p, hp, rfl⟩ := List.mem_map.mp hs
      exact decide_eq_true (hABne p (List.mem_append.mpr (Or.inl hp)))
    have h2 : (B.map Prod.fst).filter (fun s => decide (s ≠ "GLOBAL")) =
        B.map Prod.fst := by
      apply List.filter_eq_self.mpr
      intro s hs
      obtain ⟨p, hp, rfl⟩ := List.mem_map.mp hs
      exact decide_eq_true (hABne p (List.mem_append.mpr (Or.inr hp)))
    rw [if_neg (by simp)]
    rw [h1, h2, ← List.map_append]
  show kvLines g ++ (((((A ++ ("GLOBAL", g) :: B).map Prod.fst).filter
    (fun s => s ≠ "GLOBAL")).map _).flatten) = _
  rw [hfilt, List.map_map]
  congr 1
  unfold renderSpec
  congr 1
  apply List.map_congr_left
  intro p hp
  have hpS : p ∈ A ++ ("GLOBAL", g) :: B := by
    rcases List.mem_append.mp hp with h1 | h1
    · exact List.mem_append.mpr (Or.inl h1)
    · exact List.mem_append.mpr (Or.inr (List.mem_cons_of_mem _ h1))
  exact renderOf_spec _ hnd hgood p hpS

/-- C9: a text that explicitly declares a `[GLOBAL]` section (here rendered
from a canonical spec with that section anywhere among the others) stores it
under the same name as the implicit unnamed section, and serialization
writes its keys first and headerless: the `[GLOBAL]` header line present in
the input does not survive the round trip, while all other sections are
rendered in their original relative order after it. -/
theorem C9_explicit_global_conflated
    (A B : List (String × List (String × String)))
    (g : List (String × String))
    (hgood : ∀ p ∈ A ++ ("GLOBAL", g) :: B, goodName p.1 = true ∧
      (∀ q ∈ p.2, goodKey q.1 = true ∧ goodVal q.2 = true) ∧
      (p.2.map (fun q => strLower q.1)).Nodup)
    (hnd : ((A ++ ("GLOBAL", g) :: B).map (fun p => strLower p.1)).Nodup) :
    headerLineOf "GLOBAL" ∈ renderSpec (A ++ ("GLOBAL", g) :: B) ∧
    ∃ out, roundTripSave (renderSpec (A ++ ("GLOBAL", g) :: B)) = some out ∧
      removeBlanks out = kvLines g ++ renderSpec (A ++ B) := by
  have hmem : ("GLOBAL", g) ∈ A ++ ("GLOBAL", g) :: B :=
    List.mem_append.mpr (Or.inr (List.mem_cons_self _ B))
  refine ⟨?_, ⟨save_ini_lines ⟨[], A ++ ("GLOBAL", g) :: B⟩
    (smapOf (A ++ ("GLOBAL", g) :: B)) (kmapOf2 (A ++ ("GLOBAL", g) :: B)),
    ?_, ?_⟩⟩
  · exact List.mem_flatten.mpr ⟨renderSection ("GLOBAL", g),
      List.mem_map.mpr ⟨("GLOBAL", g), hmem, rfl⟩, List.mem_cons_self _ _⟩
  · unfold roundTripSave
    rw [parse_ini_renderSpec _ hgood hnd (List.ne_nil_of_mem hmem)]
  · exact save_withGlobal A B g hnd
      (fun p hp => ⟨fun q hq => ((hgood p hp).2.1 q hq).1, (hgood p hp).2.2⟩)

/-- C9 witness: the conflation evaluated with one section before and one
after an explicit `[GLOBAL]` section. -/
theorem C9_explicit_global_witness :
    headerLineOf "GLOBAL" ∈ renderSpec
      ([("Alpha", [("a", "1")])] ++ ("GLOBAL", [("gk", "gv")]) ::
        [("Omega", [("z", "9")])]) ∧
    ∃ out, roundTripSave (renderSpec
        ([("Alpha", [("a", "1")])] ++ ("GLOBAL", [("gk", "gv")]) ::
          [("Omega", [("z", "9")])])) = some out ∧
      removeBlanks out = kvLines [("gk", "gv")] ++
        renderSpec ([("Alpha", [("a", "1")])] ++ [("Omega", [("z", "9")])]) :=
  C9_explicit_global_conflated [("Alpha", [("a", "1")])]
    [("Omega", [("z", "9")])] [("gk", "gv")] (by decide) (by decide)

theorem contentOf_data_cons (l : String) (ls : List String) :
    ∃ rest, (contentOf (l :: ls)).data = l.data ++ rest := by
  cases ls with
  | nil =>
    refine ⟨[], ?_⟩
    rw [List.append_nil]
    rfl
  | cons l2 t =>
    refine ⟨'\n' :: (contentOf (l2 :: t)).data, ?_⟩
    show (l ++ "\n" ++ contentOf (l2 :: t)).data = _
    rw [String.data_append, String.data_append]
    simp

theorem topKeys_header_cons (n : String) (ls : List String) :
    topKeys (headerLineOf n :: ls) = topKeys ls := by
  obtain ⟨rest, hdata⟩ := contentOf_data_cons (headerLineOf n) ls
  have hm : munch1 isWordChar (contentOf (headerLineOf n :: ls)).data = none := by
    rw [hdata, headerLineOf_data, List.cons_append]
    simp only [munch1]
    rw [if_neg (show ¬(isWordChar '[' = true) by decide)]
  simp only [topKeys, hm, List.nil_append]

theorem topKeys_kv_cons (k v : String) (hk : goodKey k = true)
    (ls : List String) :
    topKeys (kvLine k v :: ls) = k :: topKeys ls := by
  obtain ⟨rest, hdata⟩ := contentOf_data_cons (kvLine k v) ls
  obtain ⟨hkne, hkw⟩ := goodKey_parts hk
  have hsh : (contentOf (kvLine k v :: ls)).data =
      k.data ++ '=' :: (v.data ++ rest) := by
    rw [hdata, kvLine_data, List.append_assoc]
    rfl
  have hm : munch1 isWordChar (contentOf (kvLine k v :: ls)).data =
      some (k.data, '=' :: (v.data ++ rest)) := by
    rw [hsh]
    have hrun := takeWhile_run (v.data ++ rest) (fun x hx => hkw x hx)
      (show isWordChar '=' = false by decide)
    cases hkd : k.data with
    | nil => exact absurd hkd hkne
    | cons c cs =>
      rw [hkd] at hrun
      have hcw : isWordChar c = true :=
        hkw c (by rw [hkd]; exact List.mem_cons_self c cs)
      simp only [List.cons_append] at hrun ⊢
      simp only [munch1]
      rw [if_pos hcw, hrun.1, hrun.2]
  simp only [topKeys, hm]
  rw [show ('=' :: (v.data ++ rest)).dropWhile isPySpace =
    '=' :: (v.data ++ rest) from by
      rw [List.dropWhile_cons, if_neg (by decide)]]
  rfl

theorem topKeys_kvLines :
    ∀ (kvs : List (String × String)), (∀ q ∈ kvs, goodKey q.1 = true) →
      topKeys (kvLines kvs) = kvs.map Prod.fst
  | [], _ => rfl
  | (k, v) :: qs, h => by
    show topKeys (kvLine k v :: kvLines qs) = k :: qs.map Prod.fst
    rw [topKeys_kv_cons k v (h (k, v) (List.mem_cons_self _ qs)),
      topKeys_kvLines qs fun q hq => h q (List.mem_cons_of_mem _ hq)]

theorem globalGuard_kvLines (kvs : List (String × String))
    (hgood : ∀ q ∈ kvs, goodKey q.1 = true) :
    globalGuard (kvLines kvs) = false := by
  cases kvs with
  | nil => rfl
  | cons q qs =>
    obtain ⟨hkne, hkw⟩ := goodKey_parts (hgood q (List.mem_cons_self _ qs))
    cases hkd : q.1.data with
    | nil => exact absurd hkd hkne
    | cons c cs =>
      have hcw : isWordChar c = true :=
        hkw c (by rw [hkd]; exact List.mem_cons_self c cs)
      have hnsp : isPySpace c = false := wordChar_not_pySpace hcw
      have hall : (kvLine q.1 q.2).data.all isPySpace = false := by
        rw [kvLine_data, hkd, List.cons_append, List.all_cons, hnsp,
          Bool.false_and]
      have hdw : (kvLine q.1 q.2).data.dropWhile isPySpace =
          c :: (cs ++ '=' :: q.2.data) := by
        rw [kvLine_data, hkd, List.cons_append, List.dropWhile_cons,
          if_neg (by simp [hnsp])]
      show globalGuard (kvLine q.1 q.2 :: kvLines qs) = false
      unfold globalGuard
      rw [List.dropWhile_cons]
      simp only [hall, Bool.false_eq_true, if_false, hdw]
      have hcne : c ≠ '[' :=
        wordChar_ne hcw (show isWordChar '[' = false by decide)
      simp [hcne]

theorem pass1_fold_bare :
    ∀ (kvs : List (String × String)) (st : Pass1State),
      st.current = none → (∀ q ∈ kvs, goodKey q.1 = true) →
      (kvLines kvs).foldl pass1Line st = st
  | [], _, _, _ => rfl
  | (k, v) :: qs, st, hcur, hgood => by
    have hk := hgood (k, v) (List.mem_cons_self _ qs)
    have hstep : pass1Line st (kvLine k v) = st := by
      simp only [pass1Line, pass1HeaderName_kvLine hk, hcur]
    simp only [kvLines, List.map_cons, List.foldl_cons, hstep]
    exact pass1_fold_bare qs st hcur fun q hq => hgood q (List.mem_cons_of_mem _ hq)

theorem fold_dictSet_pairs :
    ∀ (ks : List String) (d : List (String × String)),
      (∀ k ∈ ks, d.lookup k = none) → ks.Nodup →
      ks.foldl (fun d k => dictSet d k k) d = d ++ ks.map (fun k => (k, k))
  | [], d, _, _ => by simp
  | k :: t, d, hfresh, hnd => by
    have h1 : dictSet d k k = d ++ [(k, k)] :=
      dictSet_absent d k k (hfresh k (List.mem_cons_self _ t))
    simp only [List.foldl_cons, h1]
    rw [fold_dictSet_pairs t (d ++ [(k, k)])
      (by
        intro k2 hk2
        rw [lookup_append, hfresh k2 (List.mem_cons_of_mem _ hk2)]
        have hne : k2 ≠ k := fun he => (List.nodup_cons.mp hnd).1 (he ▸ hk2)
        simp [List.lookup, beq_eq_false_iff_ne.mpr hne])
      (List.nodup_cons.mp hnd).2]
    simp [List.append_assoc]

theorem parse_ini_bare (kvs : List (String × String))
    (hgood : ∀ q ∈ kvs, goodKey q.1 = true ∧ goodVal q.2 = true)
    (hnd : (kvs.map (fun q => strLower q.1)).Nodup) :
    parse_ini (kvLines kvs) =
      .ok ⟨[], [("GLOBAL", kvs)]⟩ [("global", "GLOBAL")]
        [("global", kvs.map (fun q => (q.1, q.1)))] := by
  have hkeys : ∀ q ∈ kvs, goodKey q.1 = true := fun q hq => (hgood q hq).1
  have hndRaw : (kvs.map Prod.fst).Nodup := lower_nodup_raw kvs hnd
  have hgg : globalGuard (kvLines kvs) = false := globalGuard_kvLines kvs hkeys
  have hp1 : pass1Maps (kvLines kvs) = ([], []) := by
    unfold pass1Maps
    rw [pass1_fold_bare kvs _ rfl hkeys]
  have hread : readString ("[GLOBAL]" :: kvLines kvs) =
      .ok ⟨[], [("GLOBAL", kvs)]⟩ := by
    have hgs : ∀ p ∈ [("GLOBAL", kvs)], goodName p.1 = true ∧
        (∀ q ∈ p.2, goodKey q.1 = true ∧ goodVal q.2 = true) ∧
        (p.2.map Prod.fst).Nodup := by
      intro p hp
      rw [List.mem_singleton.mp hp]
      exact ⟨show goodName "GLOBAL" = true by decide, hgood, hndRaw⟩
    have h := readString_renderSpec [("GLOBAL", kvs)] hgs (by simp)
    rw [show renderSpec [("GLOBAL", kvs)] = "[GLOBAL]" :: kvLines kvs from by
      simp [renderSpec, renderSection, kvLines]
      rfl] at h
    exact h
  have htop : topKeys ("[GLOBAL]" :: kvLines kvs) = kvs.map Prod.fst := by
    rw [show ("[GLOBAL]" : String) = headerLineOf "GLOBAL" from rfl,
      topKeys_header_cons]
    exact topKeys_kvLines kvs hkeys
  have hfold := fold_dictSet_pairs (kvs.map Prod.fst) [] (fun k hk => rfl) hndRaw
  unfold parse_ini
  rw [hp1, hgg]
  simp only [Bool.false_eq_true, if_false]
  unfold effectiveLines
  rw [hgg]
  simp only [Bool.false_eq_true, if_false]
  rw [htop, hfold, hread]
  rw [show (kvs.map Prod.fst).map (fun k => (k, k)) =
    kvs.map (fun q => (q.1, q.1)) from by rw [List.map_map]; rfl]
  rfl

theorem save_bare (kvs : List (String × String))
    (hndRaw : (kvs.map Prod.fst).Nodup) :
    save_ini_lines ⟨[], [("GLOBAL", kvs)]⟩ [("global", "GLOBAL")]
      [("global", kvs.map (fun q => (q.1, q.1)))] = kvLines kvs := by
  have hhs : hasSection ⟨[], [("GLOBAL", kvs)]⟩ "GLOBAL" = true := rfl
  have hitems : iniItems ⟨[], [("GLOBAL", kvs)]⟩ "GLOBAL" = kvs :=
    iniItems_spec [("GLOBAL", kvs)] (by simp) (List.mem_cons_self _ []) hndRaw
  have hok : ∀ q ∈ kvs,
      kvLine (origKey [("global", kvs.map (fun q => (q.1, q.1)))] "global" q.1)
        q.2 = kvLine q.1 q.2 := by
    intro q hq
    have hkey : origKey [("global", kvs.map (fun q => (q.1, q.1)))] "global"
        q.1 = q.1 := by
      unfold origKey
      rw [show (List.lookup "global" [("global",
        kvs.map (fun q => (q.1, q.1)))]) =
        some (kvs.map (fun q => (q.1, q.1))) from by simp [List.lookup]]
      show ((kvs.map (fun q => (q.1, q.1))).lookup q.1).getD q.1 = q.1
      rw [lookup_map_keyed Prod.fst Prod.fst kvs hndRaw q hq]
      rfl
    rw [hkey]
  unfold save_ini_lines
  rw [if_pos hhs, hitems, List.map_congr_left hok]
  show kvs.map (fun q => kvLine q.1 q.2) ++ saveSections _ _ _ _ _ = kvLines kvs
  rw [show saveSections ⟨[], [("GLOBAL", kvs)]⟩ [("global", "GLOBAL")]
    [("global", kvs.map (fun q => (q.1, q.1)))]
    (dictKeys ([("GLOBAL", kvs)] :
      List (String × List (String × String)))) true = [] from rfl]
  rw [List.append_nil]
  rfl

/-- C7, counterexample: the text `a=1` / `[S]` / `b=2` contains a section
header (`[S]` parses as one), yet because the text does not START with a
header the guard fails and the implicit `GLOBAL` section is synthesized -
refuting synthesis exactly when no section header appears anywhere. -/
theorem C7_synthesis_counterexample :
    sectHeaderName "[S]" = some "S" ∧
    "[S]" ∈ ["a=1", "[S]", "b=2"] ∧
    globalGuard ["a=1", "[S]", "b=2"] = false ∧
    parse_ini ["a=1", "[S]", "b=2"] =
      .ok ⟨[], [("GLOBAL", [("a", "1")]), ("S", [("b", "2")])]⟩
        [("s", "S"), ("global", "GLOBAL")]
        [("s", [("b", "b")]), ("global", [("a", "a"), ("b", "b")])] := by
  decide

/-- C7 (amended): the `[GLOBAL]` header is prepended exactly when the guard
fails, i.e. when the first non-blank content does not start with `[...]` -
not when "no header appears anywhere".  For canonical bare key-value texts
the guard fails, the store holds one `GLOBAL` section whose casing map is
seeded from the top-level `key=` scan, and serialization writes those keys
first and headerless, here an exact identity round trip; for canonical
sectioned texts (which start with a header line) nothing is prepended. -/
theorem C7_global_synthesis_amended (kvs : List (String × String))
    (spec : List (String × List (String × String)))
    (hkv : ∀ q ∈ kvs, goodKey q.1 = true ∧ goodVal q.2 = true)
    (hknd : (kvs.map (fun q => strLower q.1)).Nodup)
    (hgood : ∀ p ∈ spec, goodName p.1 = true ∧
      (∀ q ∈ p.2, goodKey q.1 = true ∧ goodVal q.2 = true) ∧
      (p.2.map (fun q => strLower q.1)).Nodup)
    (hnd : (spec.map (fun p => strLower p.1)).Nodup) (hne : spec ≠ []) :
    effectiveLines (kvLines kvs) = headerLineOf "GLOBAL" :: kvLines kvs ∧
    effectiveLines (renderSpec spec) = renderSpec spec ∧
    parse_ini (kvLines kvs) = .ok ⟨[], [("GLOBAL", kvs)]⟩
      [("global", "GLOBAL")] [("global", kvs.map (fun q => (q.1, q.1)))] ∧
    roundTripSave (kvLines kvs) = some (kvLines kvs) := by
  have hkeys : ∀ q ∈ kvs, goodKey q.1 = true := fun q hq => (hkv q hq).1
  have hgg : globalGuard (kvLines kvs) = false := globalGuard_kvLines kvs hkeys
  have hgg2 : globalGuard (renderSpec spec) = true := by
    cases spec with
    | nil => exact absurd rfl hne
    | cons p ps => exact globalGuard_renderSpec p.1 p.2 ps
  refine ⟨?_, ?_, parse_ini_bare kvs hkv hknd, ?_⟩
  · unfold effectiveLines
    rw [hgg]
    rfl
  · unfold effectiveLines
    rw [hgg2]
    rfl
  · unfold roundTripSave
    rw [parse_ini_bare kvs hkv hknd]
    show some (save_ini_lines ⟨[], [("GLOBAL", kvs)]⟩ [("global", "GLOBAL")]
      [("global", kvs.map (fun q => (q.1, q.1)))]) = some (kvLines kvs)
    rw [save_bare kvs (lower_nodup_raw kvs hknd)]

/-- C7 witness: the amended synthesis behaviour evaluated on a concrete bare
key-value text and a concrete sectioned text. -/
theorem C7_global_synthesis_witness :
    ([("S", [("x", "1")])] : List (String × List (String × String))) ≠ [] ∧
    (effectiveLines (kvLines [("alpha", "1"), ("Beta", "two words")]) =
      headerLineOf "GLOBAL" :: kvLines [("alpha", "1"), ("Beta", "two words")] ∧
    effectiveLines (renderSpec [("S", [("x", "1")])]) =
      renderSpec [("S", [("x", "1")])] ∧
    parse_ini (kvLines [("alpha", "1"), ("Beta", "two words")]) =
      .ok ⟨[], [("GLOBAL", [("alpha", "1"), ("Beta", "two words")])]⟩
        [("global", "GLOBAL")]
        [("global", [("alpha", "alpha"), ("Beta", "Beta")])] ∧
    roundTripSave (kvLines [("alpha", "1"), ("Beta", "two words")]) =
      some (kvLines [("alpha", "1"), ("Beta", "two words")])) :=
  ⟨by decide, C7_global_synthesis_amended [("alpha", "1"), ("Beta", "two words")]
    [("S", [("x", "1")])] (by decide) (by decide) (by decide) (by decide)
    (by decide)⟩

end FxViewer

